import Mathlib

/-! Verification development for `recipes.cc`.

A shallow embedding of the recipe generator (`RNG`, `shuffle`, `random_recipe`,
`generate_recipes`), the material catalog (`get_material`) and the seed scan
(`minimize_costs`), followed by theorems about them.

Conventions of the embedding.

* `std::uint32_t` values are natural numbers; every operation that can wrap is
  written with an explicit `% 2^32`.
* The state of an `RNG` object is the natural number held in its `state` field.
  A member function that mutates the object returns the new state next to its
  result.
* The `double` computations of the program only ever multiply or add numbers
  whose exact result is a (scaled) natural number, so they are embedded exactly:
  `round53` is the round-to-nearest, ties-to-even rounding of IEEE binary64
  applied to the integer significand.
* `int` sums of `minimize_costs` are integers wrapped to 32 bits by `wrap_int`.
* Loops whose termination is not evident from the source (`while` in
  `random_recipe`) take a fuel argument and return `none` when it runs out.
-/

namespace Noita

/-! ## Material catalog (lines 12-31) -/

/-- The `LIQUIDS` vector, names and order as in the source. -/
def LIQUIDS : List String :=
  ["water", "water_ice", "water_swamp",
   "oil", "alcohol", "swamp", "mud", "blood",
   "blood_fungi", "blood_worm", "radioactive_liquid",
   "cement", "acid", "lava", "urine",
   "poison", "magic_liquid_teleportation",
   "magic_liquid_polymorph", "magic_liquid_random_polymorph",
   "magic_liquid_berserk", "magic_liquid_charm",
   "magic_liquid_invisibility"]

/-- The `ORGANICS` vector, names and order as in the source. -/
def ORGANICS : List String :=
  ["sand", "bone", "soil", "honey",
   "slime", "snow", "rotten_meat", "wax",
   "gold", "silver", "copper", "brass", "diamond",
   "coal", "gunpowder", "gunpowder_explosive",
   "grass", "fungi"]

/-- The enum `MaterialType`. -/
inductive MaterialType where
  | liquid
  | organic
  deriving DecidableEq, Repr

/-- The tuple `Material = std::tuple<MaterialType,int>`.  Every index the program
stores comes from an `unsigned int` below `2^31` (a `rand_int` result or a loop
counter of `get_material`), so the `int` component is modelled by a natural
number. -/
abbrev Material := MaterialType × Nat

/-- The struct `WorldRecipes`. -/
structure WorldRecipes where
  lively_concoction : List Material
  alchemic_precursor : List Material
  deriving DecidableEq, Repr

/-! ## The generator `RNG` (lines 38-60) -/

/-- Constructor `RNG(int state)`: the argument is stored in the `std::uint32_t`
field, that is, reduced modulo `2^32`. -/
def RNG_new (state : Nat) : Nat := state % 2 ^ 32

/-- Member `RNG::gen`.  `hi`, `lo` and both products are `std::uint32_t`; the
subtraction wraps modulo `2^32`; a result of at least `2^31` is lowered by
`2^31`.  The value returned is the new state. -/
def gen (state : Nat) : Nat :=
  let hi := state / 127773
  let lo := state % 127773
  let st := ((16807 * lo) % 2 ^ 32 + 2 ^ 32 - (2836 * hi) % 2 ^ 32) % 2 ^ 32
  if 2 ^ 31 ≤ st then st - 2 ^ 31 else st

/-- Number of bits by which `n` exceeds 53 significant bits: the number of
halvings needed to bring `n` below `2^53` (`fuel` bounds the count; `n` itself
always suffices). -/
def excess_bits : Nat → Nat → Nat
  | 0, _ => 0
  | fuel + 1, n => if n < 2 ^ 53 then 0 else excess_bits fuel (n / 2) + 1

/-- Rounding of an integer significand to 53 significant bits, to nearest with
ties to even (the rounding of every binary64 operation): the low `sh` bits are
dropped and the kept part is incremented when they are above one half, or equal
to one half with the kept part odd. -/
def round53 (n : Nat) : Nat :=
  let sh := excess_bits n n
  if sh = 0 then n
  else
    let q := n / 2 ^ sh
    let r := n % 2 ^ sh
    let half := 2 ^ (sh - 1)
    if r < half then q * 2 ^ sh
    else if r = half ∧ q % 2 = 0 then q * 2 ^ sh
    else (q + 1) * 2 ^ sh

/-- Member `RNG::rand_int`, for a non-negative `max` (all call sites pass a
positive size).  `double(gen()) / (1U<<31)` is exact, the product `x*max` is the
binary64 rounding of `gen() * max / 2^31`, and the conversion to `unsigned int`
truncates.  Returns the result and the new state. -/
def rand_int (max : Nat) (state : Nat) : Nat × Nat :=
  let g := gen state
  (round53 (g * max) / 2 ^ 31, g)

/-! ## `shuffle` and `random_recipe` (lines 62-90) -/

/-- The call `std::swap(vec[i], vec[j])`; the vector is left alone when an index
is out of range (the source would be undefined there). -/
def swap (vec : List Material) (i j : Nat) : List Material :=
  match vec[i]?, vec[j]? with
  | some a, some b => (vec.set i b).set j a
  | _, _ => vec

/-- The `for` loop of `shuffle`: `n` is `i + 1`, counting down to `0`. -/
def shuffle_loop : Nat → List Material → Nat → List Material
  | 0, vec, _ => vec
  | i + 1, vec, rng =>
    let (new_index, rng1) := rand_int (i + 1) rng
    shuffle_loop i (swap vec i new_index) rng1

/-- The function `shuffle`: a fresh generator seeded with `(seed>>1) + 0x30f6`
(32-bit sum), one discarded output, then the loop from the last index down. -/
def shuffle (vec : List Material) (seed : Nat) : List Material :=
  let rng := RNG_new ((seed / 2 + 0x30f6) % 2 ^ 32)
  let rng1 := gen rng
  shuffle_loop vec.length vec rng1

/-- The `while(mats.size() < 3)` loop of `random_recipe`.  `fuel` bounds the
number of iterations; `none` means the bound was reached with the loop still
running. -/
def draw_liquids (fuel : Nat) (mats : List Material) (rng : Nat) :
    Option (List Material × Nat) :=
  if 3 ≤ mats.length then some (mats, rng)
  else
    match fuel with
    | 0 => none
    | fuel + 1 =>
      let (r, rng1) := rand_int LIQUIDS.length rng
      let new_mat : Material := (MaterialType.liquid, r)
      if new_mat ∈ mats then draw_liquids fuel mats rng1
      else draw_liquids fuel (mats ++ [new_mat]) rng1

/-- The function `random_recipe`: returns the recipe and the state in which it
leaves the caller's generator; `none` when the draw loop does not finish within
`fuel` iterations. -/
def random_recipe (fuel : Nat) (rng : Nat) (seed : Nat) :
    Option (List Material × Nat) :=
  match draw_liquids fuel [] rng with
  | none => none
  | some (mats, rng1) =>
    let (r, rng2) := rand_int ORGANICS.length rng1
    let mats1 := mats ++ [(MaterialType.organic, r)]
    let mats2 := shuffle mats1 seed
    some (mats2.dropLast, rng2)

/-- The name printed for a material by `operator<<`: `LIQUIDS.at(index)` or
`ORGANICS.at(index)`; `none` when `at` would throw. -/
def material_name : Material → Option String
  | (MaterialType.liquid, index) => LIQUIDS[index]?
  | (MaterialType.organic, index) => ORGANICS[index]?

/-- One `for` loop of `get_material`: the first index `i` (counted from `start`)
whose entry equals `name`. -/
def scan_names (name : String) : List String → Nat → Option Nat
  | [], _ => none
  | x :: rest, start => if x = name then some start else scan_names name rest (start + 1)

/-- The function `get_material`; the exception is the `error` result carrying the
message of the `std::runtime_error`. -/
def get_material (name : String) : Except String Material :=
  match scan_names name LIQUIDS 0 with
  | some i => Except.ok (MaterialType.liquid, i)
  | none =>
    match scan_names name ORGANICS 0 with
    | some i => Except.ok (MaterialType.organic, i)
    | none => Except.error ("Unknown material: " ++ name)

/-! ## `generate_recipes` (lines 116-127) -/

/-- Significand of the binary64 constant `0.17127`, which is
`6170652065437959 / 2^55`. -/
def seed_factor : Nat := 6170652065437959

/-- Significand of the binary64 constant `1323.5903`, which is
`5821211701046097 / 2^42`. -/
def seed_offset : Nat := 5821211701046097

/-- The constructor argument `seed*0.17127 + 1323.5903` of `generate_recipes`,
converted to the `int` parameter and stored in the 32-bit state.  Both binary64
operations are carried out on significands in units of `2^-55`: the product is
`round53 (seed * seed_factor)`, the sum adds `seed_offset * 2^13` and rounds
again; the conversion to `int` drops the 55 fractional bits. -/
def initial_state (seed : Nat) : Nat :=
  let prod := round53 (seed * seed_factor)
  let sum := round53 (prod + seed_offset * 2 ^ 13)
  RNG_new (sum / 2 ^ 55)

/-- The function `generate_recipes`, for a `std::uint32_t` seed (a natural number
below `2^32`); `none` when one of the two `random_recipe` calls does not finish
within `fuel` iterations of its draw loop. -/
def generate_recipes (fuel : Nat) (seed : Nat) : Option WorldRecipes :=
  let rng := initial_state seed
  let rng0 := gen (gen (gen (gen (gen (gen rng)))))
  match random_recipe fuel rng0 seed with
  | none => none
  | some (lc_recipe, rng1) =>
    let rng2 := gen (gen rng1)
    match random_recipe fuel rng2 seed with
    | none => none
    | some (ap_recipe, _) => some ⟨lc_recipe, ap_recipe⟩

/-! ## `minimize_costs` (lines 162-194) -/

/-- Result of an `int` addition, wrapped to 32 bits two's complement. -/
def wrap_int (x : Int) : Int := (x + 2 ^ 31) % 2 ^ 32 - 2 ^ 31

/-- The cost table `std::map<Material, int>` as its list of entries.  The map
holds one entry per key; theorems that need this assume the keys pairwise
distinct. -/
abbrev CostMap := List (Material × Int)

/-- The lookup `costs.at(mat)`; `none` when `at` throws `std::out_of_range`. -/
def cost_at : CostMap → Material → Option Int
  | [], _ => none
  | (k, c) :: rest, mat => if k = mat then some c else cost_at rest mat

/-- The loop `for(auto& mat : recipe) total_cost += costs.at(mat)` started with
the running sum `total`; `none` when a lookup throws. -/
def total_cost (costs : CostMap) : List Material → Int → Option Int
  | [], total => some total
  | mat :: rest, total =>
    match cost_at costs mat with
    | none => none
    | some c => total_cost costs rest (wrap_int (total + c))

/-- The vector `cost_list` after `std::sort`: the values of the table in
ascending order. -/
def cost_list (costs : CostMap) : List Int :=
  (costs.map Prod.snd).insertionSort (fun a b => a ≤ b)

/-- The value `best_possible_cost = cost_list[0] + cost_list[1] + cost_list[2]`;
`none` when the table has fewer than three entries (the source indexes out of
range). -/
def best_possible_cost (costs : CostMap) : Option Int :=
  match cost_list costs with
  | c0 :: c1 :: c2 :: _ => some (wrap_int (wrap_int (c0 + c1) + c2))
  | _ => none

/-- The running sums `acc + c₁`, `acc + c₁ + c₂`, ... of the additions performed
on the values `cs` all lie in the range of `int`, so none of the additions
overflows. -/
def sums_fit : List Int → Int → Bool
  | [], _ => true
  | c :: cs, acc =>
    decide (-(2 ^ 31) ≤ acc + c) && decide (acc + c < 2 ^ 31) && sums_fit cs (acc + c)

/-- The total cost computed for `seed` by lines 174-179 of `minimize_costs`: the
sum of the table entries of the lively concoction; `none` when
`generate_recipes` does not return within the fuel or a lookup throws. -/
def lively_cost (fuel : Nat) (costs : CostMap) (seed : Nat) : Option Int :=
  match generate_recipes fuel seed with
  | none => none
  | some recipes => total_cost costs recipes.lively_concoction 0

/-- Every material of the catalog: the 22 liquids, then the 18 organics. -/
def all_materials : List Material :=
  (List.range LIQUIDS.length).map (fun i => (MaterialType.liquid, i)) ++
    (List.range ORGANICS.length).map (fun i => (MaterialType.organic, i))

/-- A cost table with an entry for every material: `oil`, `swamp` and `poison`
cost 1, everything else costs 100. -/
def sample_costs : CostMap :=
  all_materials.map (fun m =>
    (m, if m = (MaterialType.liquid, 3) ∨ m = (MaterialType.liquid, 5) ∨
          m = (MaterialType.liquid, 15) then 1 else 100))

/-- A cost table with an entry for every material, each costing 400000000. -/
def costly_costs : CostMap :=
  all_materials.map (fun m => (m, 400000000))

/-- One line printed by `minimize_costs`: seed, cost and lively concoction. -/
structure Shown where
  seed : Nat
  cost : Int
  lc : List Material
  deriving DecidableEq, Repr

/-- The local variables of `minimize_costs` together with the lines printed so
far. -/
structure ScanState where
  best_cost : Int
  num_shown : Nat
  out : List Shown
  deriving DecidableEq, Repr

/-- How an iteration of the seed loop ends: it falls through to the next seed,
executes `break`, throws from `costs.at`, or never returns from
`generate_recipes` (within the fuel). -/
inductive Flow where
  | cont
  | broke
  | threw
  | hung
  deriving DecidableEq, Repr

/-- The body of the seed loop of `minimize_costs` for one `seed`. -/
def scan_body (fuel : Nat) (costs : CostMap) (bpc : Int) (seed : Nat) (st : ScanState) :
    ScanState × Flow :=
  match generate_recipes fuel seed with
  | none => (st, Flow.hung)
  | some recipes =>
    match total_cost costs recipes.lively_concoction 0 with
    | none => (st, Flow.threw)
    | some total =>
      if total ≤ st.best_cost then
        let out1 := st.out ++ [Shown.mk seed total recipes.lively_concoction]
        if total = bpc then
          if st.num_shown + 1 > 100 then (ScanState.mk total (st.num_shown + 1) out1, Flow.broke)
          else (ScanState.mk total (st.num_shown + 1) out1, Flow.cont)
        else (ScanState.mk total st.num_shown out1, Flow.cont)
      else (st, Flow.cont)

/-- The seed loop run for `n` consecutive seeds starting at `seed`; it stops at
the first iteration that does not fall through. -/
def scan_loop (fuel : Nat) (costs : CostMap) (bpc : Int) :
    Nat → Nat → ScanState → ScanState × Flow
  | 0, _, st => (st, Flow.cont)
  | n + 1, seed, st =>
    match scan_body fuel costs bpc seed st with
    | (st1, Flow.cont) => scan_loop fuel costs bpc n (seed + 1) st1
    | r => r

/-- The function `minimize_costs`: `best_cost = 1e9`, `num_shown = 0`, seeds
`1, 2, ..., 10^9 - 1`.  `none` when `best_possible_cost` is undefined. -/
def minimize_costs (fuel : Nat) (costs : CostMap) : Option (ScanState × Flow) :=
  match best_possible_cost costs with
  | none => none
  | some bpc => some (scan_loop fuel costs bpc (10 ^ 9 - 1) 1 (ScanState.mk (10 ^ 9) 0 []))

/-! ## Notions used in the statements -/

/-- The step of the Park-Miller minimal standard generator, as the claim words it:
`(16807 * s) mod (2^31 - 1)`. -/
def park_miller (s : Nat) : Nat := (16807 * s) % (2 ^ 31 - 1)

/-- The index pairs `(i, new_index)` swapped by the loop of `shuffle` when it runs
for `n` positions with the generator in state `rng`: `i` counts down from `n - 1`
and `new_index` is the draw `rand_int(i+1)`. -/
def swap_indices : Nat → Nat → List (Nat × Nat)
  | 0, _ => []
  | i + 1, rng =>
    let (new_index, rng1) := rand_int (i + 1) rng
    (i, new_index) :: swap_indices i rng1

/-- The state of the generator of `shuffle` when its loop starts. -/
def shuffle_state (seed : Nat) : Nat := gen (RNG_new ((seed / 2 + 0x30f6) % 2 ^ 32))

/-- The number of seeds among `seed, ..., seed + n - 1` whose total cost equals
`bpc`. -/
def hit_count (fuel : Nat) (costs : CostMap) (bpc : Int) : Nat → Nat → Nat
  | 0, _ => 0
  | n + 1, seed =>
    (if lively_cost fuel costs seed = some bpc then 1 else 0) +
      hit_count fuel costs bpc n (seed + 1)

/-- A cost table with an entry for every material, each costing 1. -/
def unit_costs : CostMap :=
  all_materials.map (fun m => (m, 1))

/-- A cost table with three entries only: `oil`, `swamp` and `copper`. -/
def sparse_costs : CostMap :=
  [((MaterialType.liquid, 3), 1), ((MaterialType.liquid, 5), 1), ((MaterialType.organic, 10), 1)]

/-- A natural number that a binary64 significand can hold exactly (up to a power of
two): `m * 2^e` with `m` below `2^53`.  All values rounded by this program lie
well inside the exponent range of binary64, so the exponent is left unbounded. -/
def representable53 (r : Nat) : Prop := ∃ m e, m < 2 ^ 53 ∧ r = m * 2 ^ e

/-- The distance between two natural numbers. -/
def gap (a b : Nat) : Nat := (a - b) + (b - a)

theorem gen_lt (state : Nat) : gen state < 2 ^ 31 := by
  unfold gen
  simp only []
  split <;> omega

theorem excess_bits_of_lt (fuel n : Nat) (h : n < 2 ^ 53) : excess_bits fuel n = 0 := by
  cases fuel with
  | zero => rfl
  | succ f => unfold excess_bits; rw [if_pos h]

theorem excess_bits_le (fuel n : Nat) (h : excess_bits fuel n ≠ 0) :
    2 ^ (52 + excess_bits fuel n) ≤ n := by
  induction fuel generalizing n with
  | zero => simp [excess_bits] at h
  | succ f ih =>
    unfold excess_bits at h ⊢
    by_cases hn : n < 2 ^ 53
    · rw [if_pos hn] at h; exact absurd rfl h
    · rw [if_neg hn]
      by_cases h0 : excess_bits f (n / 2) = 0
      · rw [h0]; omega
      · have := ih (n / 2) h0
        have e : 52 + (excess_bits f (n / 2) + 1) = (52 + excess_bits f (n / 2)) + 1 := by omega
        rw [e, pow_succ]
        omega

theorem excess_bits_lt (fuel n : Nat) (h : n < 2 ^ (53 + fuel)) :
    n < 2 ^ (53 + excess_bits fuel n) := by
  induction fuel generalizing n with
  | zero => simpa [excess_bits] using h
  | succ f ih =>
    unfold excess_bits
    by_cases hn : n < 2 ^ 53
    · rw [if_pos hn]; exact hn
    · rw [if_neg hn]
      have h2 : n / 2 < 2 ^ (53 + f) := by
        have e : 53 + (f + 1) = (53 + f) + 1 := by omega
        rw [e, pow_succ] at h
        omega
      have := ih (n / 2) h2
      have e : 53 + (excess_bits f (n / 2) + 1) = (53 + excess_bits f (n / 2)) + 1 := by omega
      rw [e, pow_succ]
      omega

/-- The part kept by `round53` has at most 53 bits: the fuel `n` is enough. -/
theorem round53_kept_lt (n : Nat) : n / 2 ^ excess_bits n n < 2 ^ 53 := by
  have h1 : n < 2 ^ (53 + n) := by
    calc n < 2 ^ n := Nat.lt_two_pow n
      _ ≤ 2 ^ (53 + n) := Nat.pow_le_pow_right (by decide) (by omega)
  have h2 := excess_bits_lt n n h1
  rw [pow_add] at h2
  exact Nat.div_lt_of_lt_mul (by rw [Nat.mul_comm]; exact h2)

theorem round53_of_lt (n : Nat) (h : n < 2 ^ 53) : round53 n = n := by
  simp [round53, excess_bits_of_lt n n h]

theorem round53_le (n : Nat) : round53 n ≤ n + 2 ^ excess_bits n n := by
  unfold round53
  simp only []
  have hq : n / 2 ^ excess_bits n n * 2 ^ excess_bits n n ≤ n := Nat.div_mul_le_self _ _
  have hpos : 0 < 2 ^ excess_bits n n := Nat.pow_pos (by decide)
  split
  · omega
  · split
    · omega
    · split
      · omega
      · rw [Nat.add_mul, Nat.one_mul]; omega

theorem round53_mul_lt (g max : Nat) (hg : g < 2 ^ 31) (hmax : 1 ≤ max) :
    round53 (g * max) < 2 ^ 31 * max := by
  have hp : g * max + max ≤ 2 ^ 31 * max := by
    have : (g + 1) * max ≤ 2 ^ 31 * max := Nat.mul_le_mul_right max hg
    rw [Nat.add_mul, Nat.one_mul] at this
    exact this
  by_cases h0 : excess_bits (g * max) (g * max) = 0
  · have : round53 (g * max) = g * max := by simp [round53, h0]
    omega
  · have h1 := excess_bits_le _ _ h0
    have h2 := round53_le (g * max)
    rw [pow_add] at h1
    have h3 : 2 ^ excess_bits (g * max) (g * max) < max := by
      by_contra hc
      have hc : max ≤ 2 ^ excess_bits (g * max) (g * max) := by omega
      have : 2 ^ 31 * max ≤ 2 ^ 31 * 2 ^ excess_bits (g * max) (g * max) :=
        Nat.mul_le_mul_left _ hc
      omega
    omega

theorem rand_int_lt (max state : Nat) (hmax : 1 ≤ max) : (rand_int max state).1 < max := by
  unfold rand_int
  simp only []
  apply Nat.div_lt_of_lt_mul
  exact round53_mul_lt (gen state) max (gen_lt state) hmax

theorem rand_int_floor (max state : Nat) (hmax : max ≤ 2 ^ 22) :
    (rand_int max state).1 = gen state * max / 2 ^ 31 := by
  unfold rand_int
  simp only []
  have hg := gen_lt state
  have : gen state * max < 2 ^ 53 := by
    calc gen state * max ≤ gen state * 2 ^ 22 := Nat.mul_le_mul_left _ hmax
      _ < 2 ^ 31 * 2 ^ 22 := Nat.mul_lt_mul_of_pos_right hg (by decide)
      _ = 2 ^ 53 := by norm_num
  rw [round53_of_lt _ this]

theorem rand_int_state (max state : Nat) : (rand_int max state).2 = gen state := rfl

/-! ## The catalog -/

theorem scan_names_none (name : String) (names : List String) (start : Nat) :
    scan_names name names start = none ↔ name ∉ names := by
  induction names generalizing start with
  | nil => simp [scan_names]
  | cons x rest ih =>
    unfold scan_names
    by_cases hx : x = name
    · simp [hx]
    · rw [if_neg hx, ih]
      simp [List.mem_cons, Ne.symm hx]

theorem scan_names_some (name : String) (names : List String) (start i : Nat)
    (h : scan_names name names start = some i) :
    start ≤ i ∧ names[i - start]? = some name := by
  induction names generalizing start with
  | nil => simp [scan_names] at h
  | cons x rest ih =>
    unfold scan_names at h
    by_cases hx : x = name
    · rw [if_pos hx] at h
      cases h
      simp [hx]
    · rw [if_neg hx] at h
      obtain ⟨h1, h2⟩ := ih (start + 1) h
      refine ⟨by omega, ?_⟩
      have e : i - start = (i - (start + 1)) + 1 := by omega
      rw [e, List.getElem?_cons_succ]
      exact h2

theorem scan_names_getElem (name : String) (names : List String) (start j : Nat)
    (hnd : names.Nodup) (hj : names[j]? = some name) :
    scan_names name names start = some (start + j) := by
  induction names generalizing start j with
  | nil => simp at hj
  | cons x rest ih =>
    unfold scan_names
    cases j with
    | zero =>
      simp at hj
      simp [hj]
    | succ j =>
      rw [List.getElem?_cons_succ] at hj
      have hmem : name ∈ rest := List.getElem?_mem hj
      have hx : x ≠ name := by
        intro hx
        rw [List.nodup_cons] at hnd
        exact hnd.1 (hx ▸ hmem)
      rw [if_neg hx, ih (start + 1) j (List.nodup_cons.mp hnd).2 hj]
      congr 1
      omega

theorem catalog_nodup : (LIQUIDS ++ ORGANICS).Nodup := by decide

theorem get_material_liquid (name : String) (i : Nat) (h : LIQUIDS[i]? = some name) :
    get_material name = Except.ok (MaterialType.liquid, i) := by
  have hnd : LIQUIDS.Nodup := (List.nodup_append.mp catalog_nodup).1
  have := scan_names_getElem name LIQUIDS 0 i hnd h
  unfold get_material
  rw [this]
  simp

theorem get_material_organic (name : String) (i : Nat) (h : ORGANICS[i]? = some name) :
    get_material name = Except.ok (MaterialType.organic, i) := by
  have hnd := List.nodup_append.mp catalog_nodup
  have hmem : name ∈ ORGANICS := List.getElem?_mem h
  have hnot : name ∉ LIQUIDS := fun hl => hnd.2.2 hl hmem
  have h1 := (scan_names_none name LIQUIDS 0).mpr hnot
  have h2 := scan_names_getElem name ORGANICS 0 i hnd.2.1 h
  unfold get_material
  rw [h1, h2]
  simp

theorem get_material_error (name : String) :
    (∃ msg, get_material name = Except.error msg) ↔ name ∉ LIQUIDS ∧ name ∉ ORGANICS := by
  unfold get_material
  constructor
  · rintro ⟨msg, h⟩
    cases h1 : scan_names name LIQUIDS 0 with
    | some i => rw [h1] at h; simp at h
    | none =>
      rw [h1] at h
      cases h2 : scan_names name ORGANICS 0 with
      | some i => rw [h2] at h; simp at h
      | none =>
        exact ⟨(scan_names_none _ _ _).mp h1, (scan_names_none _ _ _).mp h2⟩
  · rintro ⟨h1, h2⟩
    rw [(scan_names_none name LIQUIDS 0).mpr h1, (scan_names_none name ORGANICS 0).mpr h2]
    exact ⟨_, rfl⟩

theorem get_material_ok (name : String) (m : Material) (h : get_material name = Except.ok m) :
    material_name m = some name := by
  unfold get_material at h
  cases h1 : scan_names name LIQUIDS 0 with
  | some i =>
    rw [h1] at h
    simp only [Except.ok.injEq] at h
    subst h
    have := (scan_names_some name LIQUIDS 0 i h1).2
    simpa [material_name] using this
  | none =>
    rw [h1] at h
    cases h2 : scan_names name ORGANICS 0 with
    | some i =>
      rw [h2] at h
      simp only [Except.ok.injEq] at h
      subst h
      have := (scan_names_some name ORGANICS 0 i h2).2
      simpa [material_name] using this
    | none => rw [h2] at h; simp at h

/-! ## `shuffle` and `random_recipe` -/

theorem set_set_perm_aux {α : Type} [DecidableEq α] (vec : List α) (i j : Nat) (a b : α)
    (hil : i < vec.length) (hjl : j < vec.length) (hia : vec[i] = a) (hjb : vec[j] = b) :
    ((vec.set i b).set j a).Perm vec := by
  rw [List.perm_iff_count]
  intro x
  have hjl2 : j < (vec.set i b).length := by simpa using hjl
  rw [List.count_set _ _ _ _ hjl2, List.count_set _ _ _ _ hil, List.getElem_set, hia]
  have ha : a ∈ vec := hia ▸ List.getElem_mem hil
  have hb : b ∈ vec := hjb ▸ List.getElem_mem hjl
  have hca : 0 < vec.count a := List.count_pos_iff.mpr ha
  have hcb : 0 < vec.count b := List.count_pos_iff.mpr hb
  by_cases hij : i = j
  · subst hij
    have hab : a = b := by rw [← hia, ← hjb]
    subst hab
    by_cases hax : a = x
    · subst hax; simp; omega
    · simp [hax]
  · simp only [hij, if_false, hjb]
    by_cases hax : a = x <;> by_cases hbx : b = x
    · subst hax; subst hbx; simp; omega
    · subst hax; simp [hbx]; omega
    · subst hbx; simp [hax]
    · simp [hax, hbx]

theorem swap_perm (vec : List Material) (i j : Nat) : (swap vec i j).Perm vec := by
  unfold swap
  cases hi : vec[i]? with
  | none => exact List.Perm.refl _
  | some a =>
    cases hj : vec[j]? with
    | none => exact List.Perm.refl _
    | some b =>
      obtain ⟨hil, hia⟩ := List.getElem?_eq_some_iff.mp hi
      obtain ⟨hjl, hjb⟩ := List.getElem?_eq_some_iff.mp hj
      exact set_set_perm_aux vec i j a b hil hjl hia hjb

theorem shuffle_loop_perm (n : Nat) (vec : List Material) (rng : Nat) :
    (shuffle_loop n vec rng).Perm vec := by
  induction n generalizing vec rng with
  | zero => exact List.Perm.refl _
  | succ i ih =>
    unfold shuffle_loop
    exact (ih _ _).trans (swap_perm vec i _)

theorem shuffle_perm (vec : List Material) (seed : Nat) : (shuffle vec seed).Perm vec :=
  shuffle_loop_perm _ _ _

/-- Invariant of the draw loop: starting from distinct liquids (at most three),
a finished loop holds exactly three distinct liquids, each drawn with
`rand_int(LIQUIDS.size())`. -/
theorem draw_liquids_spec (fuel : Nat) (mats : List Material) (rng : Nat)
    (res : List Material) (rng1 : Nat)
    (hnd : mats.Nodup) (hlen : mats.length ≤ 3)
    (hliq : ∀ m ∈ mats, m.1 = MaterialType.liquid ∧ m.2 < LIQUIDS.length)
    (h : draw_liquids fuel mats rng = some (res, rng1)) :
    res.Nodup ∧ res.length = 3 ∧
      ∀ m ∈ res, m.1 = MaterialType.liquid ∧ m.2 < LIQUIDS.length := by
  induction fuel generalizing mats rng with
  | zero =>
    unfold draw_liquids at h
    by_cases h3 : 3 ≤ mats.length
    · rw [if_pos h3] at h
      simp only [Option.some.injEq, Prod.mk.injEq] at h
      obtain ⟨rfl, _⟩ := h
      exact ⟨hnd, by omega, hliq⟩
    · rw [if_neg h3] at h
      simp at h
  | succ f ih =>
    unfold draw_liquids at h
    by_cases h3 : 3 ≤ mats.length
    · rw [if_pos h3] at h
      simp only [Option.some.injEq, Prod.mk.injEq] at h
      obtain ⟨rfl, _⟩ := h
      exact ⟨hnd, by omega, hliq⟩
    · rw [if_neg h3] at h
      simp only [] at h
      by_cases hmem : (MaterialType.liquid, (rand_int LIQUIDS.length rng).1) ∈ mats
      · rw [if_pos hmem] at h
        exact ih mats _ hnd hlen hliq h
      · rw [if_neg hmem] at h
        refine ih _ _ ?_ ?_ ?_ h
        · refine List.Nodup.append hnd (List.nodup_singleton _) ?_
          intro m hm hm2
          rw [List.mem_singleton] at hm2
          exact hmem (hm2 ▸ hm)
        · simp; omega
        · intro m hm
          rcases List.mem_append.mp hm with hm | hm
          · exact hliq m hm
          · rw [List.mem_singleton] at hm
            subst hm
            exact ⟨rfl, rand_int_lt _ _ (by decide)⟩

theorem random_recipe_spec (fuel rng seed : Nat) (recipe : List Material) (rng1 : Nat)
    (h : random_recipe fuel rng seed = some (recipe, rng1)) :
    recipe.length = 3 ∧ recipe.Nodup := by
  unfold random_recipe at h
  cases hd : draw_liquids fuel [] rng with
  | none => rw [hd] at h; simp at h
  | some p =>
    obtain ⟨mats, rngd⟩ := p
    rw [hd] at h
    simp only [Option.some.injEq, Prod.mk.injEq] at h
    obtain ⟨hrec, _⟩ := h
    obtain ⟨hnd, hlen, hliq⟩ :=
      draw_liquids_spec fuel [] rng mats rngd List.nodup_nil (by simp) (by simp) hd
    have hnd1 : (mats ++ [(MaterialType.organic, (rand_int ORGANICS.length rngd).1)]).Nodup := by
      refine List.Nodup.append hnd (List.nodup_singleton _) ?_
      intro m hm hm2
      rw [List.mem_singleton] at hm2
      have := (hliq m hm).1
      rw [hm2] at this
      simp at this
    have hperm := shuffle_perm
      (mats ++ [(MaterialType.organic, (rand_int ORGANICS.length rngd).1)]) seed
    subst hrec
    constructor
    · rw [List.length_dropLast, hperm.length_eq]
      simp [hlen]
    · exact (hperm.nodup_iff.mpr hnd1).sublist (List.dropLast_sublist _)

/-! ## Termination of the draw loop -/

theorem wrap_int_of_fits (x : Int) (h1 : -(2 ^ 31) ≤ x) (h2 : x < 2 ^ 31) : wrap_int x = x := by
  unfold wrap_int
  omega

theorem cost_at_mem (costs : CostMap) (mat : Material) (c : Int)
    (h : cost_at costs mat = some c) : (mat, c) ∈ costs := by
  induction costs with
  | nil => simp [cost_at] at h
  | cons e rest ih =>
    obtain ⟨k, v⟩ := e
    unfold cost_at at h
    by_cases hk : k = mat
    · rw [if_pos hk] at h
      simp only [Option.some.injEq] at h
      subst hk; subst h
      exact List.mem_cons_self _ _
    · rw [if_neg hk] at h
      exact List.mem_cons_of_mem _ (ih h)

theorem total_cost_exact (costs : CostMap) (recipe : List Material) (acc : Int)
    (hent : ∀ m ∈ recipe, cost_at costs m ≠ none)
    (hfit : sums_fit (recipe.filterMap (cost_at costs)) acc = true) :
    total_cost costs recipe acc = some (acc + (recipe.filterMap (cost_at costs)).sum) := by
  induction recipe generalizing acc with
  | nil => simp [total_cost]
  | cons m rest ih =>
    cases hc : cost_at costs m with
    | none => exact absurd hc (hent m (List.mem_cons_self _ _))
    | some c =>
      unfold total_cost
      rw [hc]
      simp only [List.filterMap_cons, hc, sums_fit, Bool.and_eq_true, decide_eq_true_eq] at hfit ⊢
      obtain ⟨⟨h1, h2⟩, h3⟩ := hfit
      rw [wrap_int_of_fits _ h1 h2, ih _ (fun x hx => hent x (List.mem_cons_of_mem _ hx)) h3]
      simp only [List.sum_cons]
      congr 1
      omega

theorem sorted_cons_take_sum_le (n : Nat) (a : Int) (l : List Int)
    (hs : (a :: l).Sorted (fun x y => x ≤ y)) (hn : n ≤ l.length) :
    ((a :: l).take n).sum ≤ (l.take n).sum := by
  induction n generalizing a l with
  | zero => simp
  | succ k ih =>
    cases l with
    | nil => simp at hn
    | cons b l2 =>
      have hab : a ≤ b := (List.sorted_cons.mp hs).1 b (List.mem_cons_self _ _)
      have hs2 : (b :: l2).Sorted (fun x y => x ≤ y) := (List.sorted_cons.mp hs).2
      have := ih b l2 hs2 (by simpa using hn)
      simp only [List.take_succ_cons, List.sum_cons]
      omega

theorem sorted_take_sum_le (l l2 : List Int) (hs : l.Sorted (fun x y => x ≤ y))
    (hsub : l2.Sublist l) : (l.take l2.length).sum ≤ l2.sum := by
  induction hsub with
  | slnil => simp
  | @cons l1 l a h ih =>
    have hs2 : l.Sorted (fun x y => x ≤ y) := (List.sorted_cons.mp hs).2
    exact le_trans (sorted_cons_take_sum_le _ a l hs h.length_le) (ih hs2)
  | @cons₂ l1 l a h ih =>
    have hs2 : l.Sorted (fun x y => x ≤ y) := (List.sorted_cons.mp hs).2
    have := ih hs2
    simp only [List.length_cons, List.take_succ_cons, List.sum_cons]
    omega

/-- The costs of distinct materials with entries form a sub-multiset of the values
of the table. -/
theorem recipe_costs_subperm (costs : CostMap) (recipe : List Material)
    (hnd : recipe.Nodup) (hent : ∀ m ∈ recipe, cost_at costs m ≠ none) :
    List.Subperm (recipe.filterMap (cost_at costs)) (costs.map Prod.snd) := by
  have hpairs : List.Subperm
      (recipe.filterMap (fun m => (cost_at costs m).map (fun c => (m, c)))) costs := by
    apply List.subperm_of_subset
    · induction recipe with
      | nil => simp
      | cons m rest ih =>
        have hnd2 := List.nodup_cons.mp hnd
        cases hc : cost_at costs m with
        | none => exact absurd hc (hent m (List.mem_cons_self _ _))
        | some c =>
          simp only [List.filterMap_cons, hc, Option.map_some']
          refine List.nodup_cons.mpr ⟨?_, ih hnd2.2 (fun x hx => hent x (List.mem_cons_of_mem _ hx))⟩
          intro hmem
          rw [List.mem_filterMap] at hmem
          obtain ⟨m2, hm2, heq⟩ := hmem
          cases hc2 : cost_at costs m2 with
          | none => rw [hc2] at heq; simp at heq
          | some c2 =>
            rw [hc2] at heq
            simp only [Option.map_some', Option.some.injEq, Prod.mk.injEq] at heq
            exact hnd2.1 (heq.1 ▸ hm2)
    · intro p hp
      rw [List.mem_filterMap] at hp
      obtain ⟨m, _, heq⟩ := hp
      cases hc : cost_at costs m with
      | none => rw [hc] at heq; simp at heq
      | some c =>
        rw [hc] at heq
        simp only [Option.map_some', Option.some.injEq] at heq
        subst heq
        exact cost_at_mem costs m c hc
  obtain ⟨l, hp, hsl⟩ := hpairs
  have e : (recipe.filterMap (fun m => (cost_at costs m).map (fun c => (m, c)))).map Prod.snd =
      recipe.filterMap (cost_at costs) := by
    rw [List.map_filterMap]
    congr 1
    funext m
    cases cost_at costs m <;> rfl
  rw [← e]
  exact ⟨l.map Prod.snd, hp.map _, hsl.map _⟩

/-- The lower bound: three distinct materials with entries cost at least the sum
of the three smallest values of the table. -/
theorem lower_bound (costs : CostMap) (recipe : List Material)
    (hlen : recipe.length = 3) (hnd : recipe.Nodup)
    (hent : ∀ m ∈ recipe, cost_at costs m ≠ none)
    (hfit : sums_fit (recipe.filterMap (cost_at costs)) 0 = true)
    (hfit2 : sums_fit ((cost_list costs).take 3) 0 = true) :
    ∃ total bpc, total_cost costs recipe 0 = some total ∧
      best_possible_cost costs = some bpc ∧ bpc ≤ total := by
  have hsub := recipe_costs_subperm costs recipe hnd hent
  have hlen2 : (recipe.filterMap (cost_at costs)).length = 3 := by
    have : recipe.filterMap (cost_at costs) =
        recipe.map (fun m => (cost_at costs m).getD 0) := by
      apply List.filterMap_eq_map_iff_forall_eq_some.mpr
      intro m hm
      cases hc : cost_at costs m with
      | none => exact absurd hc (hent m hm)
      | some c => rfl
    rw [this, List.length_map, hlen]
  have hsub2 : List.Subperm (recipe.filterMap (cost_at costs)) (cost_list costs) :=
    ((List.perm_insertionSort _ _).subperm_left).mpr hsub
  obtain ⟨l, hp, hsl⟩ := hsub2
  have hsorted : (cost_list costs).Sorted (fun x y => x ≤ y) := List.sorted_insertionSort _ _
  have hsum := sorted_take_sum_le (cost_list costs) l hsorted hsl
  rw [hp.length_eq, hlen2, hp.sum_eq] at hsum
  have hl3 : 3 ≤ (cost_list costs).length := by
    have := hsl.length_le
    rw [hp.length_eq, hlen2] at this
    exact this
  obtain ⟨c0, c1, c2, rest, hcl⟩ :
      ∃ c0 c1 c2 rest, cost_list costs = c0 :: c1 :: c2 :: rest := by
    match h : cost_list costs with
    | [] => rw [h] at hl3; simp at hl3
    | [_] => rw [h] at hl3; simp at hl3
    | [_, _] => rw [h] at hl3; simp at hl3
    | c0 :: c1 :: c2 :: rest => exact ⟨_, _, _, _, rfl⟩
  rw [hcl] at hsum hfit2
  simp only [List.take_succ_cons, List.take_zero, sums_fit, Bool.and_eq_true,
    decide_eq_true_eq, Bool.and_true, List.sum_cons, List.sum_nil] at hsum hfit2
  obtain ⟨⟨h1, h2⟩, ⟨h3, h4⟩, h5, h6⟩ := hfit2
  refine ⟨_, wrap_int (wrap_int (c0 + c1) + c2),
    total_cost_exact costs recipe 0 hent hfit, ?_, ?_⟩
  · unfold best_possible_cost
    rw [hcl]
  · rw [wrap_int_of_fits (c0 + c1) (by omega) (by omega),
      wrap_int_of_fits (c0 + c1 + c2) (by omega) (by omega)]
    omega

/-! ## The seed scan -/

theorem generate_recipes_lively (fuel seed : Nat) (recipes : WorldRecipes)
    (h : generate_recipes fuel seed = some recipes) :
    recipes.lively_concoction.length = 3 ∧ recipes.lively_concoction.Nodup := by
  unfold generate_recipes at h
  simp only [] at h
  cases h1 : random_recipe fuel
      (gen (gen (gen (gen (gen (gen (initial_state seed))))))) seed with
  | none => rw [h1] at h; simp at h
  | some p1 =>
    obtain ⟨lc, rng1⟩ := p1
    rw [h1] at h
    simp only [] at h
    cases h2 : random_recipe fuel (gen (gen rng1)) seed with
    | none => rw [h2] at h; simp at h
    | some p2 =>
      obtain ⟨ap, rng2⟩ := p2
      rw [h2] at h
      simp only [Option.some.injEq] at h
      subst h
      exact random_recipe_spec fuel _ seed lc rng1 h1

theorem total_cost_entries (costs : CostMap) (recipe : List Material) (acc total : Int)
    (h : total_cost costs recipe acc = some total) : ∀ m ∈ recipe, cost_at costs m ≠ none := by
  induction recipe generalizing acc with
  | nil => simp
  | cons m rest ih =>
    unfold total_cost at h
    cases hc : cost_at costs m with
    | none => rw [hc] at h; simp at h
    | some c =>
      rw [hc] at h
      intro x hx
      rcases List.mem_cons.mp hx with hx | hx
      · rw [hx, hc]; simp
      · exact ih _ h x hx

/-- The two ways an iteration of the seed loop can go: no cost (the iteration
hangs or throws, nothing changes), or a cost `c`, handled by the three `if`s. -/
theorem scan_body_eq (fuel : Nat) (costs : CostMap) (bpc : Int) (seed : Nat) (st : ScanState) :
    (lively_cost fuel costs seed = none ∧
      (scan_body fuel costs bpc seed st = (st, Flow.hung) ∨
        scan_body fuel costs bpc seed st = (st, Flow.threw))) ∨
    (∃ c recipes, generate_recipes fuel seed = some recipes ∧
      total_cost costs recipes.lively_concoction 0 = some c ∧
      lively_cost fuel costs seed = some c ∧
      scan_body fuel costs bpc seed st =
        if c ≤ st.best_cost then
          if c = bpc then
            if st.num_shown + 1 > 100 then
              (ScanState.mk c (st.num_shown + 1)
                (st.out ++ [Shown.mk seed c recipes.lively_concoction]), Flow.broke)
            else
              (ScanState.mk c (st.num_shown + 1)
                (st.out ++ [Shown.mk seed c recipes.lively_concoction]), Flow.cont)
          else
            (ScanState.mk c st.num_shown
              (st.out ++ [Shown.mk seed c recipes.lively_concoction]), Flow.cont)
        else (st, Flow.cont)) := by
  unfold scan_body lively_cost
  cases hg : generate_recipes fuel seed with
  | none => exact Or.inl ⟨rfl, Or.inl rfl⟩
  | some recipes =>
    cases ht : total_cost costs recipes.lively_concoction 0 with
    | none => exact Or.inl ⟨by simp [ht], Or.inr (by simp [ht])⟩
    | some c => exact Or.inr ⟨c, recipes, rfl, ht, by simp [ht], by simp [ht]⟩

/-- What one iteration adds to the output. -/
theorem scan_body_out (fuel : Nat) (costs : CostMap) (bpc : Int) (seed : Nat) (st : ScanState) :
    (scan_body fuel costs bpc seed st).1.best_cost ≤ st.best_cost ∧
    ∃ extra, (scan_body fuel costs bpc seed st).1.out = st.out ++ extra ∧
      extra.length ≤ 1 ∧
      ∀ e ∈ extra, e.seed = seed ∧
        (∃ recipes, generate_recipes fuel seed = some recipes ∧
          e.lc = recipes.lively_concoction ∧ total_cost costs e.lc 0 = some e.cost) ∧
        e.cost ≤ st.best_cost ∧
        (scan_body fuel costs bpc seed st).1.best_cost = e.cost := by
  rcases scan_body_eq fuel costs bpc seed st with ⟨_, h | h⟩ | ⟨c, recipes, hg, ht, _, h⟩
  · rw [h]; exact ⟨le_refl _, [], by simp, by simp, by simp⟩
  · rw [h]; exact ⟨le_refl _, [], by simp, by simp, by simp⟩
  · rw [h]
    by_cases h1 : c ≤ st.best_cost
    · have key : ∀ e ∈ [Shown.mk seed c recipes.lively_concoction], e.seed = seed ∧
          (∃ recipes, generate_recipes fuel seed = some recipes ∧
            e.lc = recipes.lively_concoction ∧ total_cost costs e.lc 0 = some e.cost) ∧
          e.cost ≤ st.best_cost ∧ c = e.cost := by
        intro e he
        rw [List.mem_singleton] at he
        subst he
        exact ⟨rfl, ⟨recipes, hg, rfl, ht⟩, h1, rfl⟩
      rw [if_pos h1]
      by_cases h2 : c = bpc
      · rw [if_pos h2]
        by_cases h3 : st.num_shown + 1 > 100
        · rw [if_pos h3]; exact ⟨h1, _, rfl, by simp, key⟩
        · rw [if_neg h3]; exact ⟨h1, _, rfl, by simp, key⟩
      · rw [if_neg h2]; exact ⟨h1, _, rfl, by simp, key⟩
    · rw [if_neg h1]; exact ⟨le_refl _, [], by simp, by simp, by simp⟩

/-- An iteration that falls through had a cost, and the best cost afterwards is
the smaller of that cost and the previous best. -/
theorem scan_body_cont (fuel : Nat) (costs : CostMap) (bpc : Int) (seed : Nat) (st : ScanState)
    (hflow : (scan_body fuel costs bpc seed st).2 = Flow.cont) :
    ∃ c, lively_cost fuel costs seed = some c ∧
      (scan_body fuel costs bpc seed st).1.best_cost ≤ c ∧
      ((scan_body fuel costs bpc seed st).1.best_cost = st.best_cost ∨
        (scan_body fuel costs bpc seed st).1.best_cost = c) := by
  rcases scan_body_eq fuel costs bpc seed st with ⟨_, h | h⟩ | ⟨c, recipes, _, _, hc, h⟩
  · rw [h] at hflow; simp at hflow
  · rw [h] at hflow; simp at hflow
  · refine ⟨c, hc, ?_⟩
    rw [h]
    by_cases h1 : c ≤ st.best_cost
    · rw [if_pos h1]
      by_cases h2 : c = bpc
      · rw [if_pos h2]
        by_cases h3 : st.num_shown + 1 > 100
        · rw [if_pos h3]; exact ⟨le_refl _, Or.inr rfl⟩
        · rw [if_neg h3]; exact ⟨le_refl _, Or.inr rfl⟩
      · rw [if_neg h2]; exact ⟨le_refl _, Or.inr rfl⟩
    · rw [if_neg h1]; exact ⟨by simp only; omega, Or.inl rfl⟩

/-- With a cost `c`, the iteration prints its seed exactly when `c` does not exceed
the best cost so far; it then falls through or breaks, and it breaks only
after printing a line whose cost is the lower bound. -/
theorem scan_body_some (fuel : Nat) (costs : CostMap) (bpc : Int) (seed : Nat) (st : ScanState)
    (c : Int) (hc : lively_cost fuel costs seed = some c) :
    ((scan_body fuel costs bpc seed st).2 = Flow.cont ∨
      ((scan_body fuel costs bpc seed st).2 = Flow.broke ∧
        ∃ e ∈ (scan_body fuel costs bpc seed st).1.out, e.cost = bpc)) ∧
    (c ≤ st.best_cost →
      ∃ e ∈ (scan_body fuel costs bpc seed st).1.out, e.seed = seed ∧ e.cost = c) ∧
    (¬ c ≤ st.best_cost → scan_body fuel costs bpc seed st = (st, Flow.cont)) := by
  rcases scan_body_eq fuel costs bpc seed st with ⟨h0, _⟩ | ⟨c2, recipes, _, _, hc2, h⟩
  · rw [h0] at hc; simp at hc
  · rw [hc] at hc2
    simp only [Option.some.injEq] at hc2
    subst hc2
    rw [h]
    by_cases h1 : c ≤ st.best_cost
    · rw [if_pos h1]
      have hmem : ∃ e ∈ st.out ++ [Shown.mk seed c recipes.lively_concoction],
          e.seed = seed ∧ e.cost = c :=
        ⟨Shown.mk seed c recipes.lively_concoction, by simp, rfl, rfl⟩
      by_cases h2 : c = bpc
      · rw [if_pos h2]
        by_cases h3 : st.num_shown + 1 > 100
        · rw [if_pos h3]
          exact ⟨Or.inr ⟨rfl, Shown.mk seed c recipes.lively_concoction, by simp, h2⟩,
            fun _ => hmem, fun hn => absurd h1 hn⟩
        · rw [if_neg h3]
          exact ⟨Or.inl rfl, fun _ => hmem, fun hn => absurd h1 hn⟩
      · rw [if_neg h2]
        exact ⟨Or.inl rfl, fun _ => hmem, fun hn => absurd h1 hn⟩
    · rw [if_neg h1]
      exact ⟨Or.inl rfl, fun hp => absurd hp h1, fun _ => rfl⟩

theorem scan_loop_succ (fuel : Nat) (costs : CostMap) (bpc : Int) (n seed : Nat)
    (st : ScanState) :
    scan_loop fuel costs bpc (n + 1) seed st =
      if (scan_body fuel costs bpc seed st).2 = Flow.cont then
        scan_loop fuel costs bpc n (seed + 1) (scan_body fuel costs bpc seed st).1
      else scan_body fuel costs bpc seed st := by
  rw [scan_loop]
  rcases scan_body fuel costs bpc seed st with ⟨st1, fl⟩
  cases fl <;> simp

/-- Shape of the output of the seed loop: lines are appended, each for a seed of
the range scanned, with the cost computed for that seed, in ascending seed order
and with non-increasing costs. -/
theorem scan_loop_out (fuel : Nat) (costs : CostMap) (bpc : Int) (n seed : Nat)
    (st : ScanState) :
    (scan_loop fuel costs bpc n seed st).1.best_cost ≤ st.best_cost ∧
    ∃ extra, (scan_loop fuel costs bpc n seed st).1.out = st.out ++ extra ∧
      (∀ e ∈ extra, seed ≤ e.seed ∧ e.seed < seed + n ∧
        (∃ recipes, generate_recipes fuel e.seed = some recipes ∧
          e.lc = recipes.lively_concoction ∧ total_cost costs e.lc 0 = some e.cost) ∧
        e.cost ≤ st.best_cost ∧
        (scan_loop fuel costs bpc n seed st).1.best_cost ≤ e.cost) ∧
      extra.Pairwise (fun a b => a.seed < b.seed ∧ b.cost ≤ a.cost) := by
  induction n generalizing seed st with
  | zero => exact ⟨le_refl _, [], by simp [scan_loop], by simp, List.Pairwise.nil⟩
  | succ n ih =>
    rw [scan_loop_succ]
    obtain ⟨hb1, extra0, hout0, hlen0, hf0⟩ := scan_body_out fuel costs bpc seed st
    have hpw0 : extra0.Pairwise (fun a b => a.seed < b.seed ∧ b.cost ≤ a.cost) := by
      match extra0, hlen0 with
      | [], _ => exact List.Pairwise.nil
      | [x], _ => exact List.pairwise_singleton _ _
    by_cases hfl : (scan_body fuel costs bpc seed st).2 = Flow.cont
    · rw [if_pos hfl]
      obtain ⟨hle, extra1, hout1, hf1, hpw1⟩ :=
        ih (seed + 1) (scan_body fuel costs bpc seed st).1
      refine ⟨le_trans hle hb1, extra0 ++ extra1, ?_, ?_, ?_⟩
      · rw [hout1, hout0, List.append_assoc]
      · intro e he
        rcases List.mem_append.mp he with he | he
        · obtain ⟨h1, h2, h3, h4⟩ := hf0 e he
          refine ⟨by omega, by omega, ?_, h3, ?_⟩
          · rw [h1]; exact h2
          · rw [← h4]; exact hle
        · obtain ⟨h1, h2, h3, h4, h5⟩ := hf1 e he
          exact ⟨by omega, by omega, h3, le_trans h4 hb1, h5⟩
      · rw [List.pairwise_append]
        refine ⟨hpw0, hpw1, ?_⟩
        intro a ha b hb
        obtain ⟨h1, _, _, h4⟩ := hf0 a ha
        obtain ⟨g1, _, _, g4, _⟩ := hf1 b hb
        exact ⟨by omega, by rw [← h4]; exact g4⟩
    · rw [if_neg hfl]
      refine ⟨hb1, extra0, hout0, ?_, hpw0⟩
      intro e he
      obtain ⟨h1, h2, h3, h4⟩ := hf0 e he
      refine ⟨by omega, by omega, ?_, h3, by rw [h4]⟩
      rw [h1]; exact h2

/-- When the loop has run through `n` seeds without stopping, every one of them had
a cost, the best cost is below all of them, and it is the initial best cost or
the cost of one of them. -/
theorem scan_loop_cont (fuel : Nat) (costs : CostMap) (bpc : Int) (n seed : Nat)
    (st : ScanState) (h : (scan_loop fuel costs bpc n seed st).2 = Flow.cont) :
    (∀ t, seed ≤ t → t < seed + n → ∃ c, lively_cost fuel costs t = some c ∧
      (scan_loop fuel costs bpc n seed st).1.best_cost ≤ c) ∧
    ((scan_loop fuel costs bpc n seed st).1.best_cost = st.best_cost ∨
      ∃ t, seed ≤ t ∧ t < seed + n ∧
        lively_cost fuel costs t = some (scan_loop fuel costs bpc n seed st).1.best_cost) := by
  induction n generalizing seed st with
  | zero =>
    refine ⟨fun t h1 h2 => by omega, Or.inl ?_⟩
    simp [scan_loop]
  | succ n ih =>
    rw [scan_loop_succ] at h ⊢
    by_cases hfl : (scan_body fuel costs bpc seed st).2 = Flow.cont
    · rw [if_pos hfl] at h ⊢
      obtain ⟨c, hc, hle, hor⟩ := scan_body_cont fuel costs bpc seed st hfl
      obtain ⟨ih1, ih2⟩ := ih (seed + 1) _ h
      have hmono := (scan_loop_out fuel costs bpc n (seed + 1)
        (scan_body fuel costs bpc seed st).1).1
      constructor
      · intro t h1 h2
        by_cases ht : t = seed
        · subst ht
          exact ⟨c, hc, le_trans hmono hle⟩
        · exact ih1 t (by omega) (by omega)
      · rcases ih2 with ih2 | ⟨t, h1, h2, h3⟩
        · rcases hor with hor | hor
          · exact Or.inl (ih2.trans hor)
          · exact Or.inr ⟨seed, le_refl _, by omega, by rw [ih2, hor]; exact hc⟩
        · exact Or.inr ⟨t, by omega, by omega, h3⟩
    · rw [if_neg hfl] at h
      exact absurd h hfl

/-- A seed reached by the loop is printed exactly when its cost does not exceed the
best cost held when the loop reaches it. -/
theorem scan_loop_reported (fuel : Nat) (costs : CostMap) (bpc : Int) (n seed s : Nat)
    (st : ScanState) (c : Int) (hs1 : seed ≤ s) (hs2 : s < seed + n)
    (hold : ∀ e ∈ st.out, e.seed < seed)
    (hreach : (scan_loop fuel costs bpc (s - seed) seed st).2 = Flow.cont)
    (hc : lively_cost fuel costs s = some c) :
    (∃ e ∈ (scan_loop fuel costs bpc n seed st).1.out, e.seed = s) ↔
      c ≤ (scan_loop fuel costs bpc (s - seed) seed st).1.best_cost := by
  induction n generalizing seed st with
  | zero => omega
  | succ n ih =>
    rw [scan_loop_succ]
    by_cases hs : s = seed
    · subst hs
      have e0 : s - s = 0 := by omega
      rw [e0]
      simp only [scan_loop]
      obtain ⟨hflow, hyes, hno⟩ := scan_body_some fuel costs bpc s st c hc
      by_cases hle : c ≤ st.best_cost
      · simp only [hle, iff_true]
        obtain ⟨e, he, hes, _⟩ := hyes hle
        by_cases hfl : (scan_body fuel costs bpc s st).2 = Flow.cont
        · rw [if_pos hfl]
          obtain ⟨_, extra, hout, _⟩ := scan_loop_out fuel costs bpc n (s + 1)
            (scan_body fuel costs bpc s st).1
          exact ⟨e, by rw [hout]; exact List.mem_append_left _ he, hes⟩
        · rw [if_neg hfl]
          exact ⟨e, he, hes⟩
      · simp only [hle, iff_false]
        rw [hno hle]
        simp only [if_true]
        obtain ⟨_, extra, hout, hf, _⟩ := scan_loop_out fuel costs bpc n (s + 1) st
        rintro ⟨e, he, hes⟩
        rw [hout] at he
        rcases List.mem_append.mp he with he | he
        · have := hold e he; omega
        · have := (hf e he).1; omega
    · have e1 : s - seed = (s - (seed + 1)) + 1 := by omega
      rw [e1, scan_loop_succ] at hreach ⊢
      by_cases hfl : (scan_body fuel costs bpc seed st).2 = Flow.cont
      · rw [if_pos hfl] at hreach ⊢
        rw [if_pos hfl]
        refine ih (seed + 1) _ (by omega) (by omega) ?_ hreach
        obtain ⟨_, extra0, hout0, _, hf0⟩ := scan_body_out fuel costs bpc seed st
        intro e he
        rw [hout0] at he
        rcases List.mem_append.mp he with he | he
        · have := hold e he; omega
        · have := (hf0 e he).1; omega
      · rw [if_neg hfl] at hreach
        exact absurd hreach hfl

/-- When a seed of the range costs the lower bound, no earlier seed hangs, throws or
costs less than the bound, and the bound does not exceed the best cost held, a
line with the lower bound is printed. -/
theorem scan_loop_hit (fuel : Nat) (costs : CostMap) (bpc : Int) (n seed s : Nat)
    (st : ScanState) (hs1 : seed ≤ s) (hs2 : s < seed + n)
    (hprev : ∀ t, seed ≤ t → t < s → ∃ c, lively_cost fuel costs t = some c ∧ bpc ≤ c)
    (hs : lively_cost fuel costs s = some bpc) (hbest : bpc ≤ st.best_cost) :
    ∃ e ∈ (scan_loop fuel costs bpc n seed st).1.out, e.cost = bpc := by
  induction n generalizing seed st with
  | zero => omega
  | succ n ih =>
    rw [scan_loop_succ]
    by_cases hseed : s = seed
    · subst hseed
      obtain ⟨_, hyes, _⟩ := scan_body_some fuel costs bpc s st bpc hs
      obtain ⟨e, he, _, hec⟩ := hyes hbest
      by_cases hfl : (scan_body fuel costs bpc s st).2 = Flow.cont
      · rw [if_pos hfl]
        obtain ⟨_, extra, hout, _⟩ := scan_loop_out fuel costs bpc n (s + 1)
          (scan_body fuel costs bpc s st).1
        exact ⟨e, by rw [hout]; exact List.mem_append_left _ he, hec⟩
      · rw [if_neg hfl]
        exact ⟨e, he, hec⟩
    · have hs1n : seed + 1 ≤ s := by omega
      have hs2n : s < seed + 1 + n := by omega
      have hs3n : seed < s := by omega
      obtain ⟨c, hc, hbc⟩ := hprev seed (le_refl _) hs3n
      obtain ⟨hflow, _, _⟩ := scan_body_some fuel costs bpc seed st c hc
      rcases hflow with hfl | ⟨hfl, hbroke⟩
      · rw [if_pos hfl]
        obtain ⟨c2, hc2, hle, hor⟩ := scan_body_cont fuel costs bpc seed st hfl
        rw [hc] at hc2
        simp only [Option.some.injEq] at hc2
        subst hc2
        refine ih (seed + 1) (scan_body fuel costs bpc seed st).1 hs1n hs2n
          (fun t h1 h2 => hprev t (Nat.le_of_succ_le h1) h2) ?_
        rcases hor with hor | hor
        · rw [hor]; exact hbest
        · rw [hor]; exact hbc
      · have hne : ¬ (scan_body fuel costs bpc seed st).2 = Flow.cont := by
          rw [hfl]; simp
        rw [if_neg hne]
        exact hbroke

/-- When every cost exceeds the best cost held, the loop prints nothing. -/
theorem scan_loop_silent (fuel : Nat) (costs : CostMap) (bpc : Int) (n seed : Nat)
    (st : ScanState) (h : ∀ t c, lively_cost fuel costs t = some c → st.best_cost < c) :
    (scan_loop fuel costs bpc n seed st).1 = st := by
  induction n generalizing seed with
  | zero => simp [scan_loop]
  | succ n ih =>
    rw [scan_loop_succ]
    rcases scan_body_eq fuel costs bpc seed st with ⟨_, hb | hb⟩ | ⟨c, _, _, _, hc, _⟩
    · rw [hb]; simp
    · rw [hb]; simp
    · have hlt := h seed c hc
      obtain ⟨_, _, hno⟩ := scan_body_some fuel costs bpc seed st c hc
      rw [hno (by omega)]
      simpa using ih (seed + 1)

theorem lively_cost_bounds (fuel : Nat) (costs : CostMap) (lo hi : Int) (seed : Nat) (c : Int)
    (hlo : 0 ≤ lo) (hhi : 3 * hi < 2 ^ 31)
    (hv : ∀ e ∈ costs, lo ≤ e.2 ∧ e.2 ≤ hi)
    (h : lively_cost fuel costs seed = some c) : 3 * lo ≤ c ∧ c ≤ 3 * hi := by
  unfold lively_cost at h
  cases hg : generate_recipes fuel seed with
  | none => rw [hg] at h; simp at h
  | some recipes =>
    rw [hg] at h
    simp only [] at h
    obtain ⟨hlen, _⟩ := generate_recipes_lively fuel seed recipes hg
    match hl : recipes.lively_concoction, hlen with
    | [m1, m2, m3], _ =>
      rw [hl] at h
      simp only [total_cost] at h
      cases h1 : cost_at costs m1 with
      | none => rw [h1] at h; simp at h
      | some x1 =>
        cases h2 : cost_at costs m2 with
        | none => rw [h1, h2] at h; simp at h
        | some x2 =>
          cases h3 : cost_at costs m3 with
          | none => rw [h1, h2, h3] at h; simp at h
          | some x3 =>
            rw [h1, h2, h3] at h
            simp only [Option.some.injEq] at h
            have b1 := hv _ (cost_at_mem costs m1 x1 h1)
            have b2 := hv _ (cost_at_mem costs m2 x2 h2)
            have b3 := hv _ (cost_at_mem costs m3 x3 h3)
            simp only [] at b1 b2 b3
            rw [wrap_int_of_fits (0 + x1) (by omega) (by omega),
              wrap_int_of_fits (0 + x1 + x2) (by omega) (by omega),
              wrap_int_of_fits (0 + x1 + x2 + x3) (by omega) (by omega)] at h
            omega

theorem get_material_error_msg (name msg : String)
    (h : get_material name = Except.error msg) : msg = "Unknown material: " ++ name := by
  unfold get_material at h
  cases h1 : scan_names name LIQUIDS 0 with
  | some i => rw [h1] at h; simp at h
  | none =>
    rw [h1] at h
    cases h2 : scan_names name ORGANICS 0 with
    | some i => rw [h2] at h; simp at h
    | none =>
      rw [h2] at h
      simp only [Except.error.injEq] at h
      exact h.symm

/-! ## The generator and the Park-Miller step -/

theorem gen_cases (s : Nat) (hs : s < 2 ^ 32) :
    (2836 * (s / 127773) ≤ 16807 * (s % 127773) →
      gen s + 2836 * (s / 127773) = 16807 * (s % 127773)) ∧
    (16807 * (s % 127773) < 2836 * (s / 127773) →
      gen s + 2836 * (s / 127773) = 16807 * (s % 127773) + 2 ^ 31) := by
  unfold gen
  simp only []
  constructor
  · intro h
    split <;> omega
  · intro h
    split <;> omega

theorem gen_exact (s : Nat) (hs : s < 2 ^ 32) :
    16807 * (s % 127773) < 2 ^ 32 ∧ 2836 * (s / 127773) < 2 ^ 32 ∧
      (gen s : Int) =
        if 0 ≤ (16807 * (s % 127773 : Nat) : Int) - 2836 * (s / 127773 : Nat) then
          (16807 * (s % 127773 : Nat) : Int) - 2836 * (s / 127773 : Nat)
        else (16807 * (s % 127773 : Nat) : Int) - 2836 * (s / 127773 : Nat) + 2 ^ 31 := by
  obtain ⟨h1, h2⟩ := gen_cases s hs
  refine ⟨by omega, by omega, ?_⟩
  split
  · have := h1 (by omega); omega
  · have := h2 (by omega); omega

theorem gen_park_miller (s : Nat) (hs : s < 2 ^ 31) :
    (2836 * (s / 127773) ≤ 16807 * (s % 127773) → gen s = park_miller s) ∧
    (16807 * (s % 127773) < 2836 * (s / 127773) → gen s = park_miller s + 1) := by
  obtain ⟨h1, h2⟩ := gen_cases s (by omega)
  unfold park_miller
  have hdecomp : s = 127773 * (s / 127773) + s % 127773 := (Nat.div_add_mod s 127773).symm
  have hlo : s % 127773 < 127773 := Nat.mod_lt _ (by decide)
  have hhi : s / 127773 ≤ 16807 := by omega
  generalize s / 127773 = hi at *
  generalize s % 127773 = lo at *
  generalize gen s = g at *
  constructor
  · intro h
    have := h1 h
    omega
  · intro h
    have := h2 h
    omega

theorem gen_eq_zero_iff (s : Nat) (hs : s < 2 ^ 32) :
    gen s = 0 ↔ s = 0 ∨ s = 2 ^ 31 - 1 ∨ s = 2 ^ 32 - 2 := by
  obtain ⟨h1, h2⟩ := gen_cases s hs
  have hdecomp : s = 127773 * (s / 127773) + s % 127773 := (Nat.div_add_mod s 127773).symm
  have hlo : s % 127773 < 127773 := Nat.mod_lt _ (by decide)
  have hhi : s / 127773 ≤ 33614 := by omega
  generalize s / 127773 = hi at *
  generalize s % 127773 = lo at *
  generalize gen s = g at *
  constructor
  · intro h
    by_cases hc : 2836 * hi ≤ 16807 * lo
    · have := h1 hc
      omega
    · have := h2 (by omega)
      omega
  · intro h
    by_cases hc : 2836 * hi ≤ 16807 * lo
    · have := h1 hc
      omega
    · have := h2 (by omega)
      omega

theorem rand_int_zero_state (max : Nat) : rand_int max 0 = (0, 0) := by
  have hg : gen 0 = 0 := by decide
  unfold rand_int
  simp only [hg, Nat.zero_mul]
  rfl

/-! ## The swaps of `shuffle` -/

theorem shuffle_loop_eq_foldl (n : Nat) (vec : List Material) (rng : Nat) :
    shuffle_loop n vec rng =
      (swap_indices n rng).foldl (fun v p => swap v p.1 p.2) vec := by
  induction n generalizing vec rng with
  | zero => rfl
  | succ i ih =>
    unfold shuffle_loop swap_indices
    simp only [List.foldl_cons]
    exact ih _ _

theorem swap_indices_bounds (n rng : Nat) :
    ∀ p ∈ swap_indices n rng, p.2 ≤ p.1 ∧ p.1 < n := by
  induction n generalizing rng with
  | zero => intro p hp; simp [swap_indices] at hp
  | succ i ih =>
    intro p hp
    unfold swap_indices at hp
    simp only [List.mem_cons] at hp
    rcases hp with hp | hp
    · subst hp
      have := rand_int_lt (i + 1) rng (by omega)
      simp only []
      omega
    · have := ih _ p hp
      omega

theorem swap_indices_fst (n rng : Nat) :
    (swap_indices n rng).map Prod.fst = (List.range n).reverse := by
  induction n generalizing rng with
  | zero => rfl
  | succ i ih =>
    unfold swap_indices
    simp only [List.map_cons, ih, List.range_succ, List.reverse_append, List.reverse_singleton,
      List.singleton_append]

theorem swap_length (vec : List Material) (i j : Nat) : (swap vec i j).length = vec.length :=
  (swap_perm vec i j).length_eq

theorem swap_of_lt (vec : List Material) (i j : Nat) (hi : i < vec.length)
    (hj : j < vec.length) : swap vec i j = (vec.set i vec[j]).set j vec[i] := by
  unfold swap
  rw [List.getElem?_eq_getElem hi, List.getElem?_eq_getElem hj]

theorem swap_getElem?_other (vec : List Material) (i j k : Nat) (hki : k ≠ i) (hkj : k ≠ j) :
    (swap vec i j)[k]? = vec[k]? := by
  unfold swap
  cases hi : vec[i]? with
  | none => rfl
  | some a =>
    cases hj : vec[j]? with
    | none => rfl
    | some b =>
      simp only []
      rw [List.getElem?_set_ne (Ne.symm hkj), List.getElem?_set_ne (Ne.symm hki)]

theorem swap_getElem?_left (vec : List Material) (i j : Nat) (hi : i < vec.length)
    (hj : j < vec.length) : (swap vec i j)[i]? = vec[j]? := by
  rw [swap_of_lt vec i j hi hj]
  by_cases hij : i = j
  · subst hij
    simp [List.getElem?_set, hi]
  · simp [List.getElem?_set, hij, Ne.symm hij, hi, hj]

theorem shuffle_loop_getElem?_ge (n : Nat) (vec : List Material) (rng k : Nat) (hk : n ≤ k) :
    (shuffle_loop n vec rng)[k]? = vec[k]? := by
  induction n generalizing vec rng with
  | zero => rfl
  | succ i ih =>
    unfold shuffle_loop
    simp only []
    rw [ih _ _ (by omega)]
    have := rand_int_lt (i + 1) rng (by omega)
    exact swap_getElem?_other vec i _ k (by omega) (by omega)

theorem perm_cons_eraseIdx (l : List Material) (i : Nat) (a : Material) (h : l[i]? = some a) :
    l.Perm (a :: l.eraseIdx i) := by
  induction l generalizing i with
  | nil => simp at h
  | cons x rest ih =>
    cases i with
    | zero =>
      simp at h
      subst h
      simp
    | succ i =>
      rw [List.getElem?_cons_succ] at h
      simp only [List.eraseIdx_cons_succ]
      exact ((ih i h).cons x).trans (List.Perm.swap a x _)

/-- After `shuffle` on a 4-element vector the last element is the one that was at
index `j0`, the first draw `rand_int(4)` of the shuffle generator. -/
theorem shuffle_four_last (vec : List Material) (hlen : vec.length = 4) (seed : Nat) :
    (rand_int 4 (shuffle_state seed)).1 < 4 ∧
      (shuffle vec seed).getLast? = vec[(rand_int 4 (shuffle_state seed)).1]? ∧
      ((shuffle vec seed).dropLast).Perm
        (vec.eraseIdx (rand_int 4 (shuffle_state seed)).1) := by
  have hj := rand_int_lt 4 (shuffle_state seed) (by decide)
  have hlast : (shuffle vec seed).getLast? = vec[(rand_int 4 (shuffle_state seed)).1]? := by
    rw [List.getLast?_eq_getElem?, (shuffle_perm vec seed).length_eq, hlen]
    show (shuffle_loop vec.length vec (shuffle_state seed))[3]? = _
    rw [hlen]
    unfold shuffle_loop
    simp only []
    rw [shuffle_loop_getElem?_ge 3 _ _ 3 (le_refl _)]
    have hj2 : (rand_int (3 + 1) (shuffle_state seed)).1 < vec.length := by
      rw [hlen]; exact hj
    exact swap_getElem?_left vec 3 _ (by omega) hj2
  refine ⟨hj, hlast, ?_⟩
  have hjl : (rand_int 4 (shuffle_state seed)).1 < vec.length := by omega
  have hsome : vec[(rand_int 4 (shuffle_state seed)).1]? =
      some vec[(rand_int 4 (shuffle_state seed)).1] := List.getElem?_eq_getElem hjl
  rw [hsome] at hlast
  have hsplit := List.dropLast_append_getLast? _ (by rw [hlast]; rfl :
    vec[(rand_int 4 (shuffle_state seed)).1] ∈ (shuffle vec seed).getLast?)
  have h1 : ((shuffle vec seed).dropLast ++ [vec[(rand_int 4 (shuffle_state seed)).1]]).Perm
      (vec[(rand_int 4 (shuffle_state seed)).1] ::
        vec.eraseIdx (rand_int 4 (shuffle_state seed)).1) := by
    rw [hsplit]
    exact (shuffle_perm vec seed).trans (perm_cons_eraseIdx vec _ _ hsome)
  have h2 : ((shuffle vec seed).dropLast ++ [vec[(rand_int 4 (shuffle_state seed)).1]]).Perm
      (vec[(rand_int 4 (shuffle_state seed)).1] :: (shuffle vec seed).dropLast) :=
    List.perm_append_singleton _ _
  exact (List.perm_cons _).mp (h2.symm.trans h1)

/-- The organic (last element of the working sequence) survives `pop_back` exactly
when the first shuffle draw is not 3. -/
theorem shuffle_four_keeps_last (vec : List Material) (hlen : vec.length = 4) (seed : Nat)
    (hnd : vec.Nodup) (org : Material) (horg : vec[3]? = some org) :
    org ∈ (shuffle vec seed).dropLast ↔ (rand_int 4 (shuffle_state seed)).1 ≠ 3 := by
  obtain ⟨hj, _, hperm⟩ := shuffle_four_last vec hlen seed
  rw [hperm.mem_iff]
  have hjl : (rand_int 4 (shuffle_state seed)).1 < vec.length := by omega
  have hsome : vec[(rand_int 4 (shuffle_state seed)).1]? =
      some vec[(rand_int 4 (shuffle_state seed)).1] := List.getElem?_eq_getElem hjl
  have hp := perm_cons_eraseIdx vec _ _ hsome
  have hnd2 := (hp.nodup_iff.mp hnd)
  have h3 : 3 < vec.length := by omega
  have horg2 : vec[3] = org := by
    rw [List.getElem?_eq_getElem h3] at horg
    exact Option.some.inj horg
  have hmem : org ∈ vec := horg2 ▸ List.getElem_mem h3
  constructor
  · intro hin hj3
    have : vec[(rand_int 4 (shuffle_state seed)).1] = org := by
      rw [← horg2]
      congr 1
    rw [this] at hnd2
    exact (List.nodup_cons.mp hnd2).1 hin
  · intro hne
    rcases List.mem_cons.mp (hp.mem_iff.mp hmem) with h | h
    · exfalso
      apply hne
      rw [← horg2] at h
      exact ((List.Nodup.getElem_inj_iff hnd).mp h).symm
    · exact h

/-! ## Validity of the materials of a recipe -/

/-- How `random_recipe` builds its result: three distinct valid liquids from the
draw loop, one valid organic, the shuffle, and the removal of the last element. -/
theorem random_recipe_eq (fuel rng seed : Nat) (recipe : List Material) (rng1 : Nat)
    (h : random_recipe fuel rng seed = some (recipe, rng1)) :
    ∃ mats rngd, draw_liquids fuel [] rng = some (mats, rngd) ∧
      mats.Nodup ∧ mats.length = 3 ∧
      (∀ m ∈ mats, m.1 = MaterialType.liquid ∧ m.2 < LIQUIDS.length) ∧
      (rand_int ORGANICS.length rngd).1 < ORGANICS.length ∧
      recipe = (shuffle (mats ++ [(MaterialType.organic, (rand_int ORGANICS.length rngd).1)])
        seed).dropLast ∧
      rng1 = (rand_int ORGANICS.length rngd).2 := by
  unfold random_recipe at h
  cases hd : draw_liquids fuel [] rng with
  | none => rw [hd] at h; simp at h
  | some p =>
    obtain ⟨mats, rngd⟩ := p
    rw [hd] at h
    simp only [Option.some.injEq, Prod.mk.injEq] at h
    obtain ⟨hnd, hlen, hliq⟩ :=
      draw_liquids_spec fuel [] rng mats rngd List.nodup_nil (by simp) (by simp) hd
    exact ⟨mats, rngd, rfl, hnd, hlen, hliq, rand_int_lt _ _ (by decide), h.1.symm, h.2.symm⟩

theorem random_recipe_valid (fuel rng seed : Nat) (recipe : List Material) (rng1 : Nat)
    (h : random_recipe fuel rng seed = some (recipe, rng1)) :
    (∀ m ∈ recipe, (m.1 = MaterialType.liquid ∧ m.2 < 22) ∨
      (m.1 = MaterialType.organic ∧ m.2 < 18)) ∧
    recipe.countP (fun m => m.1 = MaterialType.organic) ≤ 1 ∧
    2 ≤ recipe.countP (fun m => m.1 = MaterialType.liquid) := by
  obtain ⟨mats, rngd, _, _, hlen, hliq, horg, hrec, _⟩ :=
    random_recipe_eq fuel rng seed recipe rng1 h
  have hsub : recipe.Sublist
      (shuffle (mats ++ [(MaterialType.organic, (rand_int ORGANICS.length rngd).1)]) seed) := by
    rw [hrec]; exact List.dropLast_sublist _
  have hperm := shuffle_perm
    (mats ++ [(MaterialType.organic, (rand_int ORGANICS.length rngd).1)]) seed
  have hvalid : ∀ m ∈ recipe, (m.1 = MaterialType.liquid ∧ m.2 < 22) ∨
      (m.1 = MaterialType.organic ∧ m.2 < 18) := by
    intro m hm
    have hm2 := hperm.mem_iff.mp (hsub.subset hm)
    rcases List.mem_append.mp hm2 with hm3 | hm3
    · exact Or.inl (hliq m hm3)
    · rw [List.mem_singleton] at hm3
      subst hm3
      exact Or.inr ⟨rfl, horg⟩
  have hmats0 : mats.countP (fun m => m.1 = MaterialType.organic) = 0 := by
    rw [List.countP_eq_zero]
    intro m hm
    simp [(hliq m hm).1]
  have hcount : recipe.countP (fun m => m.1 = MaterialType.organic) ≤ 1 := by
    calc recipe.countP (fun m => m.1 = MaterialType.organic)
        ≤ (shuffle (mats ++ [(MaterialType.organic, (rand_int ORGANICS.length rngd).1)])
            seed).countP (fun m => m.1 = MaterialType.organic) := hsub.countP_le _
      _ = (mats ++ [(MaterialType.organic, (rand_int ORGANICS.length rngd).1)]).countP
            (fun m => m.1 = MaterialType.organic) := hperm.countP_eq _
      _ ≤ 1 := by rw [List.countP_append, hmats0]; simp [List.countP_cons]
  refine ⟨hvalid, hcount, ?_⟩
  have hlen3 := (random_recipe_spec fuel rng seed recipe rng1 h).1
  have hsplit := List.length_eq_countP_add_countP (fun m => decide (m.1 = MaterialType.liquid))
    recipe
  have heq : recipe.countP (fun m => ¬ (decide (m.1 = MaterialType.liquid)) = true) =
      recipe.countP (fun m => m.1 = MaterialType.organic) := by
    apply List.countP_congr
    intro m _
    cases h1 : m.1 <;> simp
  rw [heq, hlen3] at hsplit
  omega

theorem material_name_of_valid (m : Material)
    (h : (m.1 = MaterialType.liquid ∧ m.2 < 22) ∨ (m.1 = MaterialType.organic ∧ m.2 < 18)) :
    (material_name m).isSome = true := by
  obtain ⟨t, i⟩ := m
  rcases h with ⟨ht, hi⟩ | ⟨ht, hi⟩
  · simp only [] at ht hi
    subst ht
    have hl : i < LIQUIDS.length := hi
    simp [material_name, List.getElem?_eq_getElem hl]
  · simp only [] at ht hi
    subst ht
    have hl : i < ORGANICS.length := hi
    simp [material_name, List.getElem?_eq_getElem hl]

/-! ## The two recipes of a world share the shuffle -/

theorem swap_map (f : Material → Material) (vec : List Material) (i j : Nat) :
    (swap vec i j).map f = swap (vec.map f) i j := by
  unfold swap
  rw [List.getElem?_map, List.getElem?_map]
  cases vec[i]? with
  | none => rfl
  | some a =>
    cases vec[j]? with
    | none => rfl
    | some b => simp [List.map_set]

theorem shuffle_loop_map (f : Material → Material) (n : Nat) (vec : List Material) (rng : Nat) :
    (shuffle_loop n vec rng).map f = shuffle_loop n (vec.map f) rng := by
  induction n generalizing vec rng with
  | zero => rfl
  | succ i ih =>
    unfold shuffle_loop
    simp only []
    rw [ih, swap_map]

theorem shuffle_map (f : Material → Material) (vec : List Material) (seed : Nat) :
    (shuffle vec seed).map f = shuffle (vec.map f) seed := by
  unfold shuffle
  simp only [List.length_map]
  exact shuffle_loop_map f _ _ _

/-- The categories of a recipe, position by position, are those of the shuffled
sequence liquid, liquid, liquid, organic with its last element removed: they
depend on the shuffle seed only. -/
theorem random_recipe_types (fuel rng seed : Nat) (recipe : List Material) (rng1 : Nat)
    (h : random_recipe fuel rng seed = some (recipe, rng1)) :
    recipe.map Prod.fst =
      ((shuffle [(MaterialType.liquid, 0), (MaterialType.liquid, 0), (MaterialType.liquid, 0),
        (MaterialType.organic, 0)] seed).dropLast).map Prod.fst := by
  obtain ⟨mats, rngd, _, _, hlen, hliq, _, hrec, _⟩ :=
    random_recipe_eq fuel rng seed recipe rng1 h
  have hmap : (mats ++ [(MaterialType.organic, (rand_int ORGANICS.length rngd).1)]).map
      (fun m => (m.1, 0)) =
      [(MaterialType.liquid, 0), (MaterialType.liquid, 0), (MaterialType.liquid, 0),
        (MaterialType.organic, 0)] := by
    match mats, hlen, hliq with
    | [a, b, c], _, hliq =>
      have ha := (hliq a (by simp)).1
      have hb := (hliq b (by simp)).1
      have hc := (hliq c (by simp)).1
      simp [ha, hb, hc]
  have h1 : recipe.map (fun m : Material => ((m.1, 0) : Material)) =
      (shuffle [(MaterialType.liquid, 0), (MaterialType.liquid, 0), (MaterialType.liquid, 0),
        (MaterialType.organic, 0)] seed).dropLast := by
    rw [hrec, List.map_dropLast, shuffle_map, hmap]
  rw [← h1, List.map_map]
  rfl

theorem generate_recipes_eq (fuel seed : Nat) (recipes : WorldRecipes)
    (h : generate_recipes fuel seed = some recipes) :
    ∃ rng1 rng2,
      random_recipe fuel (gen (gen (gen (gen (gen (gen (initial_state seed))))))) seed =
        some (recipes.lively_concoction, rng1) ∧
      random_recipe fuel (gen (gen rng1)) seed = some (recipes.alchemic_precursor, rng2) := by
  unfold generate_recipes at h
  simp only [] at h
  cases h1 : random_recipe fuel
      (gen (gen (gen (gen (gen (gen (initial_state seed))))))) seed with
  | none => rw [h1] at h; simp at h
  | some p1 =>
    obtain ⟨lc, rng1⟩ := p1
    rw [h1] at h
    simp only [] at h
    cases h2 : random_recipe fuel (gen (gen rng1)) seed with
    | none => rw [h2] at h; simp at h
    | some p2 =>
      obtain ⟨ap, rng2⟩ := p2
      rw [h2] at h
      simp only [Option.some.injEq] at h
      subst h
      exact ⟨rng1, rng2, rfl, h2⟩

theorem generate_recipes_types (fuel seed : Nat) (recipes : WorldRecipes)
    (h : generate_recipes fuel seed = some recipes) :
    recipes.lively_concoction.map Prod.fst = recipes.alchemic_precursor.map Prod.fst := by
  obtain ⟨rng1, rng2, h1, h2⟩ := generate_recipes_eq fuel seed recipes h
  rw [random_recipe_types fuel _ seed _ rng1 h1, random_recipe_types fuel _ seed _ rng2 h2]

/-! ## Early stop and missing entries -/

theorem scan_loop_add (fuel : Nat) (costs : CostMap) (bpc : Int) (a b seed : Nat)
    (st : ScanState) :
    scan_loop fuel costs bpc (a + b) seed st =
      if (scan_loop fuel costs bpc a seed st).2 = Flow.cont then
        scan_loop fuel costs bpc b (seed + a) (scan_loop fuel costs bpc a seed st).1
      else scan_loop fuel costs bpc a seed st := by
  induction a generalizing seed st with
  | zero => simp [scan_loop]
  | succ a ih =>
    have e : a + 1 + b = (a + b) + 1 := by omega
    rw [e, scan_loop_succ, scan_loop_succ]
    by_cases hfl : (scan_body fuel costs bpc seed st).2 = Flow.cont
    · rw [if_pos hfl, if_pos hfl, ih]
      have e2 : seed + 1 + a = seed + (a + 1) := by omega
      rw [e2]
    · rw [if_neg hfl, if_neg hfl, if_neg hfl]

theorem scan_loop_hits (fuel : Nat) (costs : CostMap) (bpc : Int) (n seed : Nat)
    (st : ScanState) (hk : st.num_shown ≤ 100) (hbest : bpc ≤ st.best_cost)
    (hcost : ∀ t, seed ≤ t → t < seed + n →
      ∃ c, lively_cost fuel costs t = some c ∧ bpc ≤ c) :
    (st.num_shown + hit_count fuel costs bpc n seed ≤ 100 →
      (scan_loop fuel costs bpc n seed st).2 = Flow.cont ∧
      (scan_loop fuel costs bpc n seed st).1.num_shown =
        st.num_shown + hit_count fuel costs bpc n seed) ∧
    (100 < st.num_shown + hit_count fuel costs bpc n seed →
      (scan_loop fuel costs bpc n seed st).2 = Flow.broke ∧
      (scan_loop fuel costs bpc n seed st).1.num_shown = 101) ∧
    (scan_loop fuel costs bpc n seed st).1.out.countP (fun e => e.cost = bpc) + st.num_shown =
      st.out.countP (fun e => e.cost = bpc) +
        (scan_loop fuel costs bpc n seed st).1.num_shown := by
  induction n generalizing seed st with
  | zero =>
    have e0 : scan_loop fuel costs bpc 0 seed st = (st, Flow.cont) := rfl
    have h0 : hit_count fuel costs bpc 0 seed = 0 := rfl
    rw [e0, h0]
    exact ⟨fun _ => ⟨rfl, rfl⟩, fun h => absurd h (by omega), rfl⟩
  | succ n ih =>
    obtain ⟨c, hc, hbc⟩ := hcost seed (le_refl _) (by omega)
    have hcost2 : ∀ t, seed + 1 ≤ t → t < seed + 1 + n →
        ∃ c, lively_cost fuel costs t = some c ∧ bpc ≤ c :=
      fun t h1 h2 => hcost t (by omega) (by omega)
    have hh : hit_count fuel costs bpc (n + 1) seed =
        (if c = bpc then 1 else 0) + hit_count fuel costs bpc n (seed + 1) := by
      show (if lively_cost fuel costs seed = some bpc then 1 else 0) + _ = _
      rw [hc]
      simp only [Option.some.injEq]
    rcases scan_body_eq fuel costs bpc seed st with ⟨h0, _⟩ | ⟨c2, recipes, _, _, hc2, hbody⟩
    · rw [h0] at hc; simp at hc
    · rw [hc] at hc2
      simp only [Option.some.injEq] at hc2
      subst hc2
      rw [scan_loop_succ, hh]
      by_cases h1 : c = bpc
      · have hle : c ≤ st.best_cost := by rw [h1]; exact hbest
        by_cases h3 : st.num_shown + 1 > 100
        · rw [if_pos hle, if_pos h1, if_pos h3] at hbody
          rw [hbody, if_pos h1]
          have hne : ¬ ((ScanState.mk c (st.num_shown + 1)
              (st.out ++ [Shown.mk seed c recipes.lively_concoction]), Flow.broke).2 =
                Flow.cont) := by simp
          rw [if_neg hne]
          refine ⟨fun h => absurd h (by omega), fun _ => ⟨rfl, ?_⟩, ?_⟩
          · show st.num_shown + 1 = 101
            omega
          · show List.countP (fun e => decide (e.cost = bpc))
                (st.out ++ [Shown.mk seed c recipes.lively_concoction]) + st.num_shown =
              List.countP (fun e => decide (e.cost = bpc)) st.out + (st.num_shown + 1)
            rw [List.countP_append]
            simp [List.countP_cons, h1]
            omega
        · rw [if_pos hle, if_pos h1, if_neg h3] at hbody
          rw [hbody, if_pos h1]
          have hyes : (ScanState.mk c (st.num_shown + 1)
              (st.out ++ [Shown.mk seed c recipes.lively_concoction]), Flow.cont).2 =
                Flow.cont := rfl
          rw [if_pos hyes]
          obtain ⟨ih1, ih2, ih3⟩ := ih (seed + 1)
            (ScanState.mk c (st.num_shown + 1)
              (st.out ++ [Shown.mk seed c recipes.lively_concoction]))
            (by show st.num_shown + 1 ≤ 100; omega) (by show bpc ≤ c; omega) hcost2
          dsimp only at ih1 ih2 ih3 ⊢
          have e : List.countP (fun e => decide (e.cost = bpc))
              (st.out ++ [Shown.mk seed c recipes.lively_concoction]) =
              List.countP (fun e => decide (e.cost = bpc)) st.out + 1 := by
            rw [List.countP_append]
            simp [List.countP_cons, h1]
          rw [e] at ih3
          rw [if_pos h1] at hh
          refine ⟨fun h => ?_, fun h => ?_, ?_⟩
          · have := ih1 (by omega)
            exact ⟨this.1, by omega⟩
          · exact ih2 (by omega)
          · omega
      · rw [if_neg h1, Nat.zero_add]
        by_cases h2 : c ≤ st.best_cost
        · rw [if_pos h2, if_neg h1] at hbody
          rw [hbody]
          have hyes : (ScanState.mk c st.num_shown
              (st.out ++ [Shown.mk seed c recipes.lively_concoction]), Flow.cont).2 =
                Flow.cont := rfl
          rw [if_pos hyes]
          obtain ⟨ih1, ih2, ih3⟩ := ih (seed + 1)
            (ScanState.mk c st.num_shown
              (st.out ++ [Shown.mk seed c recipes.lively_concoction]))
            hk hbc hcost2
          dsimp only at ih1 ih2 ih3 ⊢
          have e : List.countP (fun e => decide (e.cost = bpc))
              (st.out ++ [Shown.mk seed c recipes.lively_concoction]) =
              List.countP (fun e => decide (e.cost = bpc)) st.out := by
            rw [List.countP_append]
            simp [List.countP_cons, h1]
          rw [e] at ih3
          exact ⟨ih1, ih2, ih3⟩
        · rw [if_neg h2] at hbody
          rw [hbody]
          have hyes : (st, Flow.cont).2 = Flow.cont := rfl
          rw [if_pos hyes]
          exact ih (seed + 1) st hk hbest hcost2

theorem total_cost_none (costs : CostMap) (recipe : List Material) (acc : Int) (m : Material)
    (hm : m ∈ recipe) (hmiss : cost_at costs m = none) : total_cost costs recipe acc = none := by
  induction recipe generalizing acc with
  | nil => simp at hm
  | cons x rest ih =>
    unfold total_cost
    cases hx : cost_at costs x with
    | none => rfl
    | some c =>
      simp only []
      rcases List.mem_cons.mp hm with h | h
      · rw [← h, hmiss] at hx; simp at hx
      · exact ih _ h

theorem total_cost_some (costs : CostMap) (recipe : List Material) (acc : Int)
    (hent : ∀ m ∈ recipe, cost_at costs m ≠ none) : total_cost costs recipe acc ≠ none := by
  intro hnone
  induction recipe generalizing acc with
  | nil => simp [total_cost] at hnone
  | cons x rest ih =>
    unfold total_cost at hnone
    cases hx : cost_at costs x with
    | none => exact hent x (List.mem_cons_self _ _) hx
    | some c =>
      rw [hx] at hnone
      exact ih _ (fun m hm => hent m (List.mem_cons_of_mem _ hm)) hnone

/-- An iteration throws exactly when `generate_recipes` returned and a lookup of
the lively concoction failed; it then leaves the state alone. -/
theorem scan_body_threw (fuel : Nat) (costs : CostMap) (bpc : Int) (seed : Nat) (st : ScanState) :
    ((scan_body fuel costs bpc seed st).2 = Flow.threw ↔
      ∃ recipes, generate_recipes fuel seed = some recipes ∧
        total_cost costs recipes.lively_concoction 0 = none) ∧
    ((scan_body fuel costs bpc seed st).2 = Flow.threw →
      (scan_body fuel costs bpc seed st).1 = st) := by
  unfold scan_body
  cases hg : generate_recipes fuel seed with
  | none => simp
  | some recipes =>
    cases ht : total_cost costs recipes.lively_concoction 0 with
    | none => simp [ht]
    | some c =>
      simp only [ht]
      by_cases h1 : c ≤ st.best_cost
      · rw [if_pos h1]
        by_cases h2 : c = bpc
        · rw [if_pos h2]
          by_cases h3 : st.num_shown + 1 > 100
          · rw [if_pos h3]; simp [ht]
          · rw [if_neg h3]; simp [ht]
        · rw [if_neg h2]; simp [ht]
      · rw [if_neg h1]; simp [ht]

theorem scan_loop_not_threw (fuel : Nat) (costs : CostMap) (bpc : Int) (n seed : Nat)
    (st : ScanState)
    (hent : ∀ t recipes, seed ≤ t → t < seed + n → generate_recipes fuel t = some recipes →
      ∀ m ∈ recipes.lively_concoction, cost_at costs m ≠ none) :
    (scan_loop fuel costs bpc n seed st).2 ≠ Flow.threw := by
  induction n generalizing seed st with
  | zero => simp [scan_loop]
  | succ n ih =>
    rw [scan_loop_succ]
    by_cases hfl : (scan_body fuel costs bpc seed st).2 = Flow.cont
    · rw [if_pos hfl]
      exact ih (seed + 1) _ (fun t r h1 h2 => hent t r (by omega) (by omega))
    · rw [if_neg hfl]
      intro hthrew
      obtain ⟨recipes, hg, ht⟩ := ((scan_body_threw fuel costs bpc seed st).1).mp hthrew
      exact total_cost_some costs _ 0 (hent seed recipes (le_refl _) (by omega) hg) ht

/-- A reached seed whose lively concoction lacks an entry ends the scan with a throw:
the result is the state reached before that seed. -/
theorem scan_loop_throws (fuel : Nat) (costs : CostMap) (bpc : Int) (n s : Nat)
    (st : ScanState) (recipes : WorldRecipes) (m : Material)
    (hs1 : 1 ≤ s) (hs2 : s ≤ n)
    (hreach : (scan_loop fuel costs bpc (s - 1) 1 st).2 = Flow.cont)
    (hg : generate_recipes fuel s = some recipes)
    (hm : m ∈ recipes.lively_concoction) (hmiss : cost_at costs m = none) :
    scan_loop fuel costs bpc n 1 st =
      ((scan_loop fuel costs bpc (s - 1) 1 st).1, Flow.threw) := by
  have e : n = (s - 1) + ((n - s) + 1) := by omega
  have e1 : 1 + (s - 1) = s := by omega
  rw [e, scan_loop_add, if_pos hreach, scan_loop_succ, e1]
  have ht := total_cost_none costs recipes.lively_concoction 0 m hm hmiss
  obtain ⟨h1, h2⟩ := scan_body_threw fuel costs bpc s (scan_loop fuel costs bpc (s - 1) 1 st).1
  have hfl := h1.mpr ⟨recipes, hg, ht⟩
  have hst := h2 hfl
  have hne : ¬ (scan_body fuel costs bpc s (scan_loop fuel costs bpc (s - 1) 1 st).1).2 =
      Flow.cont := by rw [hfl]; simp
  rw [if_neg hne]
  exact Prod.ext hst hfl

/-! ## The binary64 rounding of the seeding formula -/

theorem excess_bits_le_of_lt (fuel n k : Nat) (h : n < 2 ^ (53 + k)) :
    excess_bits fuel n ≤ k := by
  induction fuel generalizing n k with
  | zero => simp [excess_bits]
  | succ f ih =>
    unfold excess_bits
    by_cases hn : n < 2 ^ 53
    · rw [if_pos hn]; omega
    · rw [if_neg hn]
      cases k with
      | zero => exact absurd h hn
      | succ k =>
        have e : 53 + (k + 1) = (53 + k) + 1 := by omega
        rw [e, pow_succ] at h
        have := ih (n / 2) k (by omega)
        omega

/-- The two candidates of `round53` and the choice between them, for a number of
more than 53 bits: with `X = 2^sh` the weight of the last kept bit and `H = X/2`,
the result is `q*X` when the dropped part is below `H`, or equal to `H` with `q`
even, and `(q+1)*X` otherwise. -/
theorem round53_cases (n : Nat) (h : excess_bits n n ≠ 0) :
    2 ^ excess_bits n n = 2 * 2 ^ (excess_bits n n - 1) ∧
    2 ^ 52 ≤ n / 2 ^ excess_bits n n ∧ n / 2 ^ excess_bits n n < 2 ^ 53 ∧
    ((round53 n = n / 2 ^ excess_bits n n * 2 ^ excess_bits n n ∧
        (n % 2 ^ excess_bits n n < 2 ^ (excess_bits n n - 1) ∨
          (n % 2 ^ excess_bits n n = 2 ^ (excess_bits n n - 1) ∧
            n / 2 ^ excess_bits n n % 2 = 0))) ∨
      (round53 n = (n / 2 ^ excess_bits n n + 1) * 2 ^ excess_bits n n ∧
        (2 ^ (excess_bits n n - 1) < n % 2 ^ excess_bits n n ∨
          (n % 2 ^ excess_bits n n = 2 ^ (excess_bits n n - 1) ∧
            n / 2 ^ excess_bits n n % 2 = 1)))) := by
  have hX : 2 ^ excess_bits n n = 2 * 2 ^ (excess_bits n n - 1) := by
    have e : excess_bits n n = (excess_bits n n - 1) + 1 := by omega
    conv_lhs => rw [e]
    rw [pow_succ, Nat.mul_comm]
  have hq1 : 2 ^ 52 ≤ n / 2 ^ excess_bits n n := by
    have := excess_bits_le n n h
    rw [pow_add] at this
    exact (Nat.le_div_iff_mul_le (Nat.pow_pos (by decide))).mpr this
  refine ⟨hX, hq1, round53_kept_lt n, ?_⟩
  unfold round53
  simp only [h, if_false]
  by_cases h1 : n % 2 ^ excess_bits n n < 2 ^ (excess_bits n n - 1)
  · rw [if_pos h1]
    exact Or.inl ⟨rfl, Or.inl h1⟩
  · rw [if_neg h1]
    by_cases h2 : n % 2 ^ excess_bits n n = 2 ^ (excess_bits n n - 1) ∧
        n / 2 ^ excess_bits n n % 2 = 0
    · rw [if_pos h2]
      exact Or.inl ⟨rfl, Or.inr h2⟩
    · rw [if_neg h2]
      refine Or.inr ⟨rfl, ?_⟩
      by_cases h3 : n % 2 ^ excess_bits n n = 2 ^ (excess_bits n n - 1)
      · refine Or.inr ⟨h3, ?_⟩
        have : ¬ n / 2 ^ excess_bits n n % 2 = 0 := fun h4 => h2 ⟨h3, h4⟩
        omega
      · exact Or.inl (by omega)

theorem round53_representable (n : Nat) : representable53 (round53 n) := by
  by_cases h : excess_bits n n = 0
  · have hn : n < 2 ^ 53 := by
      have h1 : n < 2 ^ (53 + n) := by
        calc n < 2 ^ n := Nat.lt_two_pow n
          _ ≤ 2 ^ (53 + n) := Nat.pow_le_pow_right (by decide) (by omega)
      have := excess_bits_lt n n h1
      rwa [h] at this
    rw [round53_of_lt n hn]
    exact ⟨n, 0, hn, by simp⟩
  · obtain ⟨_, hq1, hq2, hr | hr⟩ := round53_cases n h
    · exact ⟨_, _, hq2, hr.1⟩
    · by_cases hq3 : n / 2 ^ excess_bits n n + 1 < 2 ^ 53
      · exact ⟨_, _, hq3, hr.1⟩
      · have hq4 : n / 2 ^ excess_bits n n + 1 = 2 ^ 53 := by omega
        refine ⟨2 ^ 52, excess_bits n n + 1, by decide, ?_⟩
        rw [hr.1, hq4]
        ring

/-- No representable number lies strictly between two consecutive multiples of `X`
at or above `2^52 * X`. -/
theorem representable53_outside (r q sh : Nat) (hr : representable53 r) (hq : 2 ^ 52 ≤ q) :
    r ≤ q * 2 ^ sh ∨ (q + 1) * 2 ^ sh ≤ r := by
  obtain ⟨m, e, hm, rfl⟩ := hr
  by_cases he : sh ≤ e
  · obtain ⟨d, rfl⟩ := Nat.exists_eq_add_of_le he
    have e : m * 2 ^ (sh + d) = (m * 2 ^ d) * 2 ^ sh := by ring
    rw [e]
    by_cases hk : m * 2 ^ d ≤ q
    · exact Or.inl (Nat.mul_le_mul_right _ hk)
    · have hk2 : q + 1 ≤ m * 2 ^ d := by omega
      exact Or.inr (Nat.mul_le_mul_right _ hk2)
  · left
    have he2 : e + 1 ≤ sh := by omega
    obtain ⟨d, rfl⟩ := Nat.exists_eq_add_of_le he2
    calc m * 2 ^ e ≤ 2 ^ 53 * 2 ^ e := Nat.mul_le_mul_right _ (le_of_lt hm)
      _ = 2 ^ 52 * 2 ^ (e + 1) := by ring
      _ ≤ 2 ^ 52 * 2 ^ (e + 1 + d) :=
          Nat.mul_le_mul_left _ (Nat.pow_le_pow_right (by decide) (by omega))
      _ ≤ q * 2 ^ (e + 1 + d) := Nat.mul_le_mul_right _ hq

/-- `round53` rounds to a nearest representable number. -/
theorem round53_nearest (n r : Nat) (hr : representable53 r) :
    gap (round53 n) n ≤ gap r n := by
  unfold gap
  by_cases h : excess_bits n n = 0
  · have : round53 n = n := by simp [round53, h]
    omega
  · obtain ⟨hX, hq1, _, hc⟩ := round53_cases n h
    have hout := representable53_outside r _ (excess_bits n n) hr hq1
    have hdiv : n / 2 ^ excess_bits n n * 2 ^ excess_bits n n + n % 2 ^ excess_bits n n = n :=
      Nat.div_add_mod' n _
    have hmod : n % 2 ^ excess_bits n n < 2 ^ excess_bits n n :=
      Nat.mod_lt _ (Nat.pow_pos (by decide))
    rw [Nat.add_mul, Nat.one_mul] at hout hc
    rcases hc with ⟨hc1, hc2⟩ | ⟨hc1, hc2⟩
    · rw [hc1]; omega
    · rw [hc1]; omega

/-- Ties go to the even significand: when another representable number is as near
to `n` as `round53 n`, the significand of `round53 n` is even. -/
theorem round53_ties_even (n r : Nat) (hr : representable53 r) (hne : r ≠ round53 n)
    (htie : gap r n = gap (round53 n) n) :
    ∃ m e, m % 2 = 0 ∧ 2 ^ 52 ≤ m ∧ m < 2 ^ 53 ∧ round53 n = m * 2 ^ e := by
  unfold gap at htie
  by_cases h : excess_bits n n = 0
  · have : round53 n = n := by simp [round53, h]
    omega
  · obtain ⟨hX, hq1, hq2, hc⟩ := round53_cases n h
    have hout := representable53_outside r _ (excess_bits n n) hr hq1
    have hdiv : n / 2 ^ excess_bits n n * 2 ^ excess_bits n n + n % 2 ^ excess_bits n n = n :=
      Nat.div_add_mod' n _
    have hmod : n % 2 ^ excess_bits n n < 2 ^ excess_bits n n :=
      Nat.mod_lt _ (Nat.pow_pos (by decide))
    rcases hc with ⟨hc1, hc2⟩ | ⟨hc1, hc2⟩
    · refine ⟨n / 2 ^ excess_bits n n, excess_bits n n, ?_, hq1, hq2, hc1⟩
      rw [Nat.add_mul, Nat.one_mul] at hout
      rw [hc1] at htie hne
      omega
    · have hodd : n / 2 ^ excess_bits n n % 2 = 1 := by
        rw [Nat.add_mul, Nat.one_mul] at hout hc1
        rw [hc1] at htie hne
        omega
      by_cases hq3 : n / 2 ^ excess_bits n n + 1 < 2 ^ 53
      · exact ⟨n / 2 ^ excess_bits n n + 1, excess_bits n n, by omega, by omega, hq3, hc1⟩
      · have hq4 : n / 2 ^ excess_bits n n + 1 = 2 ^ 53 := by omega
        refine ⟨2 ^ 52, excess_bits n n + 1, by decide, le_refl _, by decide, ?_⟩
        rw [hc1, hq4]
        ring

theorem round53_le_of_lt (n k : Nat) (h : n < 2 ^ (53 + k)) : round53 n ≤ n + 2 ^ k := by
  have h1 := round53_le n
  have h2 : 2 ^ excess_bits n n ≤ 2 ^ k :=
    Nat.pow_le_pow_right (by decide) (excess_bits_le_of_lt n n k h)
  omega

/-- For a 32-bit seed the rounded sum, in units of `2^-55`, is below `2^86`, so the
conversion to `int` is defined and the state is the integer part of the sum. -/
theorem initial_state_eq (seed : Nat) (hseed : seed < 2 ^ 32) :
    initial_state seed =
        round53 (round53 (seed * seed_factor) + seed_offset * 2 ^ 13) / 2 ^ 55 ∧
      initial_state seed < 2 ^ 31 := by
  have hf : seed_factor = 6170652065437959 := rfl
  have ho : seed_offset = 5821211701046097 := rfl
  have h1 : seed * seed_factor < 2 ^ (53 + 32) := by rw [hf]; omega
  have h2 := round53_le_of_lt _ 32 h1
  have h3 : round53 (seed * seed_factor) + seed_offset * 2 ^ 13 < 2 ^ (53 + 33) := by
    rw [hf] at h1 h2 ⊢
    rw [ho]
    omega
  have h4 := round53_le_of_lt _ 33 h3
  have h5 : round53 (round53 (seed * seed_factor) + seed_offset * 2 ^ 13) / 2 ^ 55 < 2 ^ 31 := by
    apply Nat.div_lt_of_lt_mul
    omega
  unfold initial_state RNG_new
  simp only []
  rw [Nat.mod_eq_of_lt (by omega)]
  exact ⟨rfl, h5⟩

theorem seed_constants :
    (2 ^ 52 ≤ seed_factor ∧ seed_factor < 2 ^ 53 ∧
      2 * gap (seed_factor * 100000) (17127 * 2 ^ 55) < 100000) ∧
    (2 ^ 52 ≤ seed_offset ∧ seed_offset < 2 ^ 53 ∧
      2 * gap (seed_offset * 10000) (13235903 * 2 ^ 42) < 10000) := by
  decide

/-! ## Evaluations and the kept organic -/

set_option maxRecDepth 100000 in
theorem unit_costs_seeds : ∀ t < 102, 1 ≤ t → lively_cost 5 unit_costs t = some 3 := by
  decide

set_option maxRecDepth 100000 in
theorem unit_costs_hits : hit_count 5 unit_costs 3 101 1 = 101 := by
  decide

/-- The organic drawn by `random_recipe` is kept exactly when the first draw of the
shuffle generator is not 3. -/
theorem random_recipe_organic_iff (fuel rng seed : Nat) (recipe : List Material) (rng1 : Nat)
    (h : random_recipe fuel rng seed = some (recipe, rng1)) :
    (∃ m ∈ recipe, m.1 = MaterialType.organic) ↔ (rand_int 4 (shuffle_state seed)).1 ≠ 3 := by
  obtain ⟨mats, rngd, _, hnd, hlen, hliq, _, hrec, _⟩ :=
    random_recipe_eq fuel rng seed recipe rng1 h
  have hnd1 : (mats ++ [(MaterialType.organic, (rand_int ORGANICS.length rngd).1)]).Nodup := by
    refine List.Nodup.append hnd (List.nodup_singleton _) ?_
    intro m hm hm2
    rw [List.mem_singleton] at hm2
    have := (hliq m hm).1
    rw [hm2] at this
    simp at this
  have hlen4 : (mats ++ [(MaterialType.organic, (rand_int ORGANICS.length rngd).1)]).length = 4 := by
    simp [hlen]
  have h3 : (mats ++ [(MaterialType.organic, (rand_int ORGANICS.length rngd).1)])[3]? =
      some (MaterialType.organic, (rand_int ORGANICS.length rngd).1) := by
    rw [List.getElem?_append_right (by omega)]
    simp [hlen]
  rw [← shuffle_four_keeps_last _ hlen4 seed hnd1 _ h3, ← hrec]
  constructor
  · rintro ⟨m, hm, hmo⟩
    have hsub : recipe.Sublist
        (shuffle (mats ++ [(MaterialType.organic, (rand_int ORGANICS.length rngd).1)]) seed) := by
      rw [hrec]; exact List.dropLast_sublist _
    have hm2 := (shuffle_perm _ seed).mem_iff.mp (hsub.subset hm)
    rcases List.mem_append.mp hm2 with hm3 | hm3
    · have := (hliq m hm3).1
      rw [hmo] at this
      simp at this
    · rw [List.mem_singleton] at hm3
      rw [← hm3]
      exact hm
  · intro hin
    exact ⟨_, hin, rfl⟩

/-! ## States absorbed by 0 -/

/-- C1: whenever `random_recipe` returns, for any state of the primary generator
and any shuffle seed, the recipe returned has exactly 3 materials and they are
pairwise distinct as (category, index) pairs. -/
theorem C1_recipe_three_distinct (fuel rng seed : Nat) (recipe : List Material) (rng1 : Nat)
    (h : random_recipe fuel rng seed = some (recipe, rng1)) :
    recipe.length = 3 ∧ recipe.Nodup :=
  random_recipe_spec fuel rng seed recipe rng1 h

theorem C1_recipe_three_distinct_witness :
    random_recipe 3 1 1 =
        some ([(MaterialType.liquid, 0), (MaterialType.liquid, 2), (MaterialType.organic, 8)],
          984943658) ∧
      [(MaterialType.liquid, 0), (MaterialType.liquid, 2), (MaterialType.organic, 8)].length = 3 ∧
      [(MaterialType.liquid, 0), (MaterialType.liquid, 2), (MaterialType.organic, 8)].Nodup :=
  ⟨by decide, C1_recipe_three_distinct 3 1 1 _ 984943658 (by decide)⟩

/-- C2: for every generator state and every `max >= 1`, `rand_int(max)` returns a
value below `max`; for `max = 0` it returns 0; and for `max` up to `2^22` (every
call site) the binary64 product is exact, so the value is
`floor(gen() * max / 2^31)`. -/
theorem C2_rand_int_range (state max : Nat) (hmax : 1 ≤ max) :
    (rand_int max state).1 < max ∧ (rand_int 0 state).1 = 0 ∧
      (max ≤ 2 ^ 22 → (rand_int max state).1 = gen state * max / 2 ^ 31) := by
  refine ⟨rand_int_lt max state hmax, ?_, rand_int_floor max state⟩
  rw [rand_int_floor 0 state (by decide)]
  simp

theorem C2_rand_int_range_witness :
    1 ≤ 22 ∧ (rand_int 22 282475249).1 < 22 ∧ (rand_int 0 282475249).1 = 0 ∧
      (22 ≤ 2 ^ 22 → (rand_int 22 282475249).1 = gen 282475249 * 22 / 2 ^ 31) :=
  ⟨by decide, C2_rand_int_range 282475249 22 (by decide)⟩

/-- C3: for every state (32-bit or not, at least `2^31` or not) the value returned
by `gen()`, which is also the new state, is strictly below `2^31`. -/
theorem C3_gen_31_bit (state : Nat) : gen state < 2 ^ 31 ∧ (rand_int 1 state).2 < 2 ^ 31 :=
  ⟨gen_lt state, gen_lt state⟩

/-- C5: `get_material("water")` is `(liquid, 0)`, `get_material("sand")` is
`(organic, 0)`, and `get_material("bogus")` fails with the unknown-material
error. -/
theorem C5_get_material_examples :
    get_material "water" = Except.ok (MaterialType.liquid, 0) ∧
      get_material "sand" = Except.ok (MaterialType.organic, 0) ∧
      get_material "bogus" = Except.error "Unknown material: bogus" :=
  ⟨rfl, rfl, rfl⟩

/-- C6: round trip.  A liquid with index below 22 or an organic with index below
18 has a catalog name, and `get_material` on that name returns the material;
the two lists have 22 and 18 names, all 40 distinct. -/
theorem C6_round_trip (m : Material)
    (h : (m.1 = MaterialType.liquid ∧ m.2 < 22) ∨ (m.1 = MaterialType.organic ∧ m.2 < 18)) :
    (∃ name, material_name m = some name ∧ get_material name = Except.ok m) ∧
      LIQUIDS.length = 22 ∧ ORGANICS.length = 18 ∧ (LIQUIDS ++ ORGANICS).Nodup := by
  refine ⟨?_, rfl, rfl, catalog_nodup⟩
  obtain ⟨t, i⟩ := m
  rcases h with ⟨ht, hi⟩ | ⟨ht, hi⟩
  · simp only [] at ht hi
    subst ht
    have hl : i < LIQUIDS.length := hi
    refine ⟨LIQUIDS[i], ?_, get_material_liquid _ i (List.getElem?_eq_getElem hl)⟩
    simp [material_name, List.getElem?_eq_getElem hl]
  · simp only [] at ht hi
    subst ht
    have hl : i < ORGANICS.length := hi
    refine ⟨ORGANICS[i], ?_, get_material_organic _ i (List.getElem?_eq_getElem hl)⟩
    simp [material_name, List.getElem?_eq_getElem hl]

theorem C6_round_trip_witness :
    (∃ name, material_name (MaterialType.organic, 17) = some name ∧
        get_material name = Except.ok (MaterialType.organic, 17)) ∧
      LIQUIDS.length = 22 ∧ ORGANICS.length = 18 ∧ (LIQUIDS ++ ORGANICS).Nodup :=
  C6_round_trip (MaterialType.organic, 17) (Or.inr ⟨rfl, by decide⟩)

/-- C7: `get_material(name)` fails exactly when `name` occurs in neither `LIQUIDS`
nor `ORGANICS`, the failure carries the unknown-material message, and when it
succeeds the catalog entry at the returned (category, index) is `name`. -/
theorem C7_get_material_total (name : String) :
    ((∃ msg, get_material name = Except.error msg) ↔ name ∉ LIQUIDS ∧ name ∉ ORGANICS) ∧
      (∀ msg, get_material name = Except.error msg → msg = "Unknown material: " ++ name) ∧
      (∀ m, get_material name = Except.ok m → material_name m = some name) :=
  ⟨get_material_error name, fun msg h => get_material_error_msg name msg h,
    fun m h => get_material_ok name m h⟩

theorem C7_get_material_total_witness :
    material_name (MaterialType.liquid, 13) = some "lava" ∧
      ¬ (∃ msg, get_material "lava" = Except.error msg) :=
  ⟨(C7_get_material_total "lava").2.2 (MaterialType.liquid, 13) rfl,
    fun h => absurd ((C7_get_material_total "lava").1.mp h).1 (by decide)⟩

/-- C8: when the additions that compute `best_possible_cost` do not overflow,
(1) every recipe of 3 pairwise distinct materials that all have entries, whose
own running sums do not overflow, has a total cost of at least
`best_possible_cost`, the sum of the first 3 values of the sorted cost list; and
(2) no line printed by `minimize_costs` carries a cost below `best_possible_cost`
(for lines whose own sums do not overflow). -/
theorem C8_cost_at_least_lower_bound (costs : CostMap)
    (hfit2 : sums_fit ((cost_list costs).take 3) 0 = true) :
    (∀ recipe : List Material, recipe.length = 3 → recipe.Nodup →
      (∀ m ∈ recipe, cost_at costs m ≠ none) →
      sums_fit (recipe.filterMap (cost_at costs)) 0 = true →
      ∃ total bpc, total_cost costs recipe 0 = some total ∧
        best_possible_cost costs = some bpc ∧ bpc ≤ total) ∧
    (∀ fuel r e, minimize_costs fuel costs = some r → e ∈ r.1.out →
      sums_fit (e.lc.filterMap (cost_at costs)) 0 = true →
      ∃ bpc, best_possible_cost costs = some bpc ∧ bpc ≤ e.cost) := by
  constructor
  · intro recipe hlen hnd hent hfit
    exact lower_bound costs recipe hlen hnd hent hfit hfit2
  · intro fuel r e hr he hfit
    unfold minimize_costs at hr
    cases hb : best_possible_cost costs with
    | none => rw [hb] at hr; simp at hr
    | some bpc0 =>
      rw [hb] at hr
      simp only [Option.some.injEq] at hr
      subst hr
      obtain ⟨_, extra, hout, hf, _⟩ :=
        scan_loop_out fuel costs bpc0 (10 ^ 9 - 1) 1 (ScanState.mk (10 ^ 9) 0 [])
      rw [hout, List.nil_append] at he
      obtain ⟨_, _, ⟨recipes, hg, hlc, ht⟩, _, _⟩ := hf e he
      obtain ⟨hlen, hnd⟩ := generate_recipes_lively fuel e.seed recipes hg
      rw [← hlc] at hlen hnd
      obtain ⟨total, bpc, h1, h2, h3⟩ :=
        lower_bound costs e.lc hlen hnd (total_cost_entries costs e.lc 0 e.cost ht) hfit hfit2
      rw [ht] at h1
      simp only [Option.some.injEq] at h1
      rw [hb] at h2
      exact ⟨bpc, h2, by rw [h1]; exact h3⟩

theorem C8_cost_at_least_lower_bound_witness :
    sums_fit ((cost_list sample_costs).take 3) 0 = true ∧
      ∃ total bpc,
        total_cost sample_costs
          [(MaterialType.liquid, 5), (MaterialType.liquid, 3), (MaterialType.organic, 10)] 0 =
            some total ∧
        best_possible_cost sample_costs = some bpc ∧ bpc ≤ total :=
  ⟨by decide,
    (C8_cost_at_least_lower_bound sample_costs (by decide)).1
      [(MaterialType.liquid, 5), (MaterialType.liquid, 3), (MaterialType.organic, 10)]
      (by decide) (by decide) (by decide) (by decide)⟩

/-- C9, as it stands, fails: in the table `costly_costs` every material has an
entry of 400000000, the lower bound is 1200000000 (no overflow), the lively
concoction of seed 1 costs exactly the lower bound, and `minimize_costs` prints
nothing at all, because no cost is at most the initial `best_cost = 1e9`. -/
theorem C9_counterexample :
    (∀ m ∈ all_materials, cost_at costly_costs m = some 400000000) ∧
      best_possible_cost costly_costs = some 1200000000 ∧
      lively_cost 5 costly_costs 1 = some 1200000000 ∧
      ∀ fuel, ∃ r, minimize_costs fuel costly_costs = some r ∧ r.1.out = [] := by
  have hb : best_possible_cost costly_costs = some 1200000000 := by decide
  refine ⟨by decide, hb, by decide, fun fuel => ?_⟩
  unfold minimize_costs
  rw [hb]
  refine ⟨_, rfl, ?_⟩
  rw [scan_loop_silent fuel costly_costs 1200000000 (10 ^ 9 - 1) 1 (ScanState.mk (10 ^ 9) 0 [])]
  intro t c hc
  have := lively_cost_bounds fuel costly_costs 400000000 400000000 t c (by decide) (by decide)
    (by decide) hc
  simp only []
  omega

/-- C9, amended: when the lower bound is at most `10^9` (the initial `best_cost`),
a seed `s` with `1 <= s < 10^9` costs exactly the lower bound, and every seed
before `s` yields a total cost that is not below the lower bound (no hang, no
missing entry, no overflow), `minimize_costs` prints at least one line whose
cost equals the lower bound. -/
theorem C9_lower_bound_reported (fuel : Nat) (costs : CostMap) (bpc : Int) (s : Nat)
    (hb : best_possible_cost costs = some bpc) (hbound : bpc ≤ 10 ^ 9)
    (hs1 : 1 ≤ s) (hs2 : s < 10 ^ 9)
    (hprev : ∀ t, 1 ≤ t → t < s → ∃ c, lively_cost fuel costs t = some c ∧ bpc ≤ c)
    (hs : lively_cost fuel costs s = some bpc) :
    ∃ r, minimize_costs fuel costs = some r ∧ ∃ e ∈ r.1.out, e.cost = bpc := by
  unfold minimize_costs
  rw [hb]
  refine ⟨_, rfl, ?_⟩
  exact scan_loop_hit fuel costs bpc (10 ^ 9 - 1) 1 s (ScanState.mk (10 ^ 9) 0 []) hs1
    (by omega) hprev hs hbound

theorem C9_lower_bound_reported_witness :
    best_possible_cost sample_costs = some 3 ∧ lively_cost 5 sample_costs 1 = some 102 ∧
      lively_cost 5 sample_costs 2 = some 3 ∧
      ∃ r, minimize_costs 5 sample_costs = some r ∧ ∃ e ∈ r.1.out, e.cost = 3 :=
  ⟨by decide, by decide, by decide,
    C9_lower_bound_reported 5 sample_costs 3 2 (by decide) (by decide) (by decide) (by decide)
      (fun t h1 h2 => by
        have ht : t = 1 := by omega
        subst ht
        exact ⟨102, by decide, by decide⟩)
      (by decide)⟩

/-- C10: running minimum with ties.  When every seed's total cost is at most
`10^9`, a seed `s` reached by the scan (the loop ran through the seeds
`1 .. s-1` without stopping) and having a cost `c` is printed if and only if `c`
is at most the cost of every earlier seed; and in the output the seeds are
strictly ascending and the costs non-increasing. -/
theorem C10_running_minimum (fuel : Nat) (costs : CostMap) (bpc : Int) (s : Nat) (c : Int)
    (hb : best_possible_cost costs = some bpc)
    (hs1 : 1 ≤ s) (hs2 : s < 10 ^ 9)
    (hle : ∀ t c2, lively_cost fuel costs t = some c2 → c2 ≤ 10 ^ 9)
    (hreach : (scan_loop fuel costs bpc (s - 1) 1 (ScanState.mk (10 ^ 9) 0 [])).2 = Flow.cont)
    (hc : lively_cost fuel costs s = some c) :
    ∃ r, minimize_costs fuel costs = some r ∧
      ((∃ e ∈ r.1.out, e.seed = s) ↔
        ∀ t c2, 1 ≤ t → t < s → lively_cost fuel costs t = some c2 → c ≤ c2) ∧
      r.1.out.Pairwise (fun a b => a.seed < b.seed ∧ b.cost ≤ a.cost) := by
  unfold minimize_costs
  rw [hb]
  refine ⟨_, rfl, ?_, ?_⟩
  · rw [scan_loop_reported fuel costs bpc (10 ^ 9 - 1) 1 s (ScanState.mk (10 ^ 9) 0 []) c hs1
      (by omega) (by simp) hreach hc]
    obtain ⟨hall, hor⟩ :=
      scan_loop_cont fuel costs bpc (s - 1) 1 (ScanState.mk (10 ^ 9) 0 []) hreach
    constructor
    · intro h t c2 ht1 ht2 hc2
      obtain ⟨c3, hc3, hle3⟩ := hall t ht1 (by omega)
      rw [hc2] at hc3
      simp only [Option.some.injEq] at hc3
      subst hc3
      exact le_trans h hle3
    · intro h
      rcases hor with hor | ⟨t, ht1, ht2, hct⟩
      · rw [hor]
        exact hle s c hc
      · exact h t _ ht1 (by omega) hct
  · obtain ⟨_, extra, hout, _, hpw⟩ :=
      scan_loop_out fuel costs bpc (10 ^ 9 - 1) 1 (ScanState.mk (10 ^ 9) 0 [])
    rw [hout, List.nil_append]
    exact hpw

theorem C10_running_minimum_witness :
    (scan_loop 5 sample_costs 3 (2 - 1) 1 (ScanState.mk (10 ^ 9) 0 [])).2 = Flow.cont ∧
      lively_cost 5 sample_costs 2 = some 3 ∧
      ∃ r, minimize_costs 5 sample_costs = some r ∧
        ((∃ e ∈ r.1.out, e.seed = 2) ↔
          ∀ t c2, 1 ≤ t → t < 2 → lively_cost 5 sample_costs t = some c2 → 3 ≤ c2) ∧
        r.1.out.Pairwise (fun a b => a.seed < b.seed ∧ b.cost ≤ a.cost) :=
  ⟨by decide, by decide,
    C10_running_minimum 5 sample_costs 3 2 3 (by decide) (by decide) (by decide)
      (fun t c2 h =>
        (lively_cost_bounds 5 sample_costs 1 100 t c2 (by decide) (by decide) (by decide) h).2.trans
          (by decide))
      (by decide) (by decide)⟩

/-- C11, as it stands, fails: with the table `costly_costs` the lower bound is
1200000000, seed 1 is scanned and costs exactly the lower bound (one hit among the
first seed), yet the counter is still 0 after seed 1 and 0 when `minimize_costs`
ends, because the counter is only touched inside `if(total_cost <= best_cost)`. -/
theorem C11_counterexample :
    best_possible_cost costly_costs = some 1200000000 ∧
      hit_count 5 costly_costs 1200000000 1 1 = 1 ∧
      scan_loop 5 costly_costs 1200000000 1 1 (ScanState.mk (10 ^ 9) 0 []) =
        (ScanState.mk (10 ^ 9) 0 [], Flow.cont) ∧
      ∀ fuel, ∃ r, minimize_costs fuel costly_costs = some r ∧ r.1.num_shown = 0 := by
  have hb : best_possible_cost costly_costs = some 1200000000 := by decide
  refine ⟨hb, by decide, by decide, fun fuel => ?_⟩
  unfold minimize_costs
  rw [hb]
  refine ⟨_, rfl, ?_⟩
  rw [scan_loop_silent fuel costly_costs 1200000000 (10 ^ 9 - 1) 1 (ScanState.mk (10 ^ 9) 0 [])]
  intro t c hc
  have := lively_cost_bounds fuel costly_costs 400000000 400000000 t c (by decide) (by decide)
    (by decide) hc
  simp only []
  omega

/-- C11, amended: when the lower bound is at most `10^9` and each of the seeds
`1 .. n` (with `n < 10^9`) yields a total cost not below the lower bound, then
after the scan of these seeds: if at most 100 of them cost the lower bound the
scan has not stopped and the counter equals their number; if more than 100 do,
the scan has stopped by `break` with the counter at 101 and this is the result
of `minimize_costs`; the number of printed lines whose cost is the lower bound
equals the counter, which never exceeds 101; and no printed seed exceeds `n`. -/
theorem C11_early_stop (fuel : Nat) (costs : CostMap) (bpc : Int) (n : Nat)
    (hb : best_possible_cost costs = some bpc) (hbound : bpc ≤ 10 ^ 9)
    (hn : n ≤ 10 ^ 9 - 1)
    (hcost : ∀ t, 1 ≤ t → t ≤ n → ∃ c, lively_cost fuel costs t = some c ∧ bpc ≤ c) :
    (hit_count fuel costs bpc n 1 ≤ 100 →
      (scan_loop fuel costs bpc n 1 (ScanState.mk (10 ^ 9) 0 [])).2 = Flow.cont ∧
      (scan_loop fuel costs bpc n 1 (ScanState.mk (10 ^ 9) 0 [])).1.num_shown =
        hit_count fuel costs bpc n 1) ∧
    (100 < hit_count fuel costs bpc n 1 →
      (scan_loop fuel costs bpc n 1 (ScanState.mk (10 ^ 9) 0 [])).2 = Flow.broke ∧
      (scan_loop fuel costs bpc n 1 (ScanState.mk (10 ^ 9) 0 [])).1.num_shown = 101 ∧
      minimize_costs fuel costs =
        some (scan_loop fuel costs bpc n 1 (ScanState.mk (10 ^ 9) 0 []))) ∧
    (scan_loop fuel costs bpc n 1 (ScanState.mk (10 ^ 9) 0 [])).1.out.countP
        (fun e => e.cost = bpc) =
      (scan_loop fuel costs bpc n 1 (ScanState.mk (10 ^ 9) 0 [])).1.num_shown ∧
    (scan_loop fuel costs bpc n 1 (ScanState.mk (10 ^ 9) 0 [])).1.num_shown ≤ 101 ∧
    ∀ e ∈ (scan_loop fuel costs bpc n 1 (ScanState.mk (10 ^ 9) 0 [])).1.out, e.seed ≤ n := by
  obtain ⟨h1, h2, h3⟩ := scan_loop_hits fuel costs bpc n 1 (ScanState.mk (10 ^ 9) 0 [])
    (by decide) hbound (fun t ht1 ht2 => hcost t ht1 (by omega))
  dsimp only at h1 h2 h3
  rw [Nat.zero_add] at h1 h2
  refine ⟨h1, fun h => ?_, ?_, ?_, ?_⟩
  · obtain ⟨hf, hk⟩ := h2 h
    refine ⟨hf, hk, ?_⟩
    unfold minimize_costs
    rw [hb]
    have e : 10 ^ 9 - 1 = n + (10 ^ 9 - 1 - n) := by omega
    have hne : ¬ (scan_loop fuel costs bpc n 1 (ScanState.mk (10 ^ 9) 0 [])).2 = Flow.cont := by
      rw [hf]; simp
    simp only []
    rw [e, scan_loop_add, if_neg hne]
  · simpa using h3
  · by_cases h : hit_count fuel costs bpc n 1 ≤ 100
    · rw [(h1 h).2]; omega
    · rw [(h2 (by omega)).2]
  · obtain ⟨_, extra, hout, hf, _⟩ :=
      scan_loop_out fuel costs bpc n 1 (ScanState.mk (10 ^ 9) 0 [])
    intro e he
    rw [hout, List.nil_append] at he
    have := (hf e he).2.1
    omega

theorem C11_early_stop_witness :
    100 < hit_count 5 unit_costs 3 101 1 ∧
      (scan_loop 5 unit_costs 3 101 1 (ScanState.mk (10 ^ 9) 0 [])).2 = Flow.broke ∧
      (scan_loop 5 unit_costs 3 101 1 (ScanState.mk (10 ^ 9) 0 [])).1.num_shown = 101 ∧
      minimize_costs 5 unit_costs =
        some (scan_loop 5 unit_costs 3 101 1 (ScanState.mk (10 ^ 9) 0 [])) :=
  ⟨by rw [unit_costs_hits]; decide,
    (C11_early_stop 5 unit_costs 3 101 (by decide) (by decide) (by decide)
      (fun t h1 h2 => ⟨3, unit_costs_seeds t (by omega) h1, le_refl _⟩)).2.1
      (by rw [unit_costs_hits]; decide)⟩

/-- C12: a seed `s` reached by the scan whose lively concoction contains a material
without entry makes `minimize_costs` end with the lookup error at that seed: the
result is the state held before `s`, so neither `s` nor a later seed is printed;
and when every material of every recipe of the range has an entry, the scan
does not end with a lookup error. -/
theorem C12_missing_entry_fatal (fuel : Nat) (costs : CostMap) (bpc : Int)
    (hb : best_possible_cost costs = some bpc) :
    (∀ s recipes m, 1 ≤ s → s < 10 ^ 9 →
      (scan_loop fuel costs bpc (s - 1) 1 (ScanState.mk (10 ^ 9) 0 [])).2 = Flow.cont →
      generate_recipes fuel s = some recipes → m ∈ recipes.lively_concoction →
      cost_at costs m = none →
      minimize_costs fuel costs =
          some ((scan_loop fuel costs bpc (s - 1) 1 (ScanState.mk (10 ^ 9) 0 [])).1,
            Flow.threw) ∧
        ∀ e ∈ (scan_loop fuel costs bpc (s - 1) 1 (ScanState.mk (10 ^ 9) 0 [])).1.out,
          e.seed < s) ∧
    ((∀ t recipes, 1 ≤ t → t < 10 ^ 9 → generate_recipes fuel t = some recipes →
        ∀ m ∈ recipes.lively_concoction, cost_at costs m ≠ none) →
      ∃ r, minimize_costs fuel costs = some r ∧ r.2 ≠ Flow.threw) := by
  constructor
  · intro s recipes m hs1 hs2 hreach hg hm hmiss
    constructor
    · unfold minimize_costs
      rw [hb]
      simp only []
      rw [scan_loop_throws fuel costs bpc (10 ^ 9 - 1) s (ScanState.mk (10 ^ 9) 0 []) recipes m
        hs1 (by omega) hreach hg hm hmiss]
    · obtain ⟨_, extra, hout, hf, _⟩ :=
        scan_loop_out fuel costs bpc (s - 1) 1 (ScanState.mk (10 ^ 9) 0 [])
      intro e he
      rw [hout, List.nil_append] at he
      have := (hf e he).2.1
      omega
  · intro hent
    unfold minimize_costs
    rw [hb]
    refine ⟨_, rfl, ?_⟩
    exact scan_loop_not_threw fuel costs bpc (10 ^ 9 - 1) 1 (ScanState.mk (10 ^ 9) 0 [])
      (fun t r h1 h2 hg => hent t r h1 (by omega) hg)

theorem C12_missing_entry_fatal_witness :
    minimize_costs 5 sparse_costs =
        some ((scan_loop 5 sparse_costs 3 (2 - 1) 1 (ScanState.mk (10 ^ 9) 0 [])).1,
          Flow.threw) ∧
      ∀ e ∈ (scan_loop 5 sparse_costs 3 (2 - 1) 1 (ScanState.mk (10 ^ 9) 0 [])).1.out,
        e.seed < 2 :=
  (C12_missing_entry_fatal 5 sparse_costs 3 (by decide)).1 2
    ⟨[(MaterialType.liquid, 15), (MaterialType.liquid, 5), (MaterialType.liquid, 3)],
      [(MaterialType.liquid, 17), (MaterialType.liquid, 8), (MaterialType.liquid, 16)]⟩
    (MaterialType.liquid, 15) (by decide) (by decide) (by decide) (by decide) (by decide)
    (by decide)

/-- C13: for every 32-bit seed the primary generator starts in the state
`floor(seed * 0.17127 + 1323.5903)` computed in binary64: the two constants are
the binary64 values nearest to the decimal literals, `round53` (used for the
product and for the sum) yields a representable number nearest to its argument
with ties to the even significand, the state is the integer part of the rounded
sum, which is below `2^31`, so the conversions to `int` and to the 32-bit state
change nothing; `generate_recipes` then discards exactly 6 outputs before the
lively-concoction draws and exactly 2 more before the alchemic-precursor draws. -/
theorem C13_initial_state (fuel seed : Nat) (hseed : seed < 2 ^ 32) :
    ((2 ^ 52 ≤ seed_factor ∧ seed_factor < 2 ^ 53 ∧
        2 * gap (seed_factor * 100000) (17127 * 2 ^ 55) < 100000) ∧
      (2 ^ 52 ≤ seed_offset ∧ seed_offset < 2 ^ 53 ∧
        2 * gap (seed_offset * 10000) (13235903 * 2 ^ 42) < 10000)) ∧
    (∀ n, representable53 (round53 n) ∧
      (∀ r, representable53 r → gap (round53 n) n ≤ gap r n) ∧
      (∀ r, representable53 r → r ≠ round53 n → gap r n = gap (round53 n) n →
        ∃ m e, m % 2 = 0 ∧ 2 ^ 52 ≤ m ∧ m < 2 ^ 53 ∧ round53 n = m * 2 ^ e)) ∧
    (initial_state seed =
        round53 (round53 (seed * seed_factor) + seed_offset * 2 ^ 13) / 2 ^ 55 ∧
      initial_state seed < 2 ^ 31) ∧
    generate_recipes fuel seed =
      match random_recipe fuel
          (gen (gen (gen (gen (gen (gen (initial_state seed))))))) seed with
      | none => none
      | some (lc_recipe, rng1) =>
        match random_recipe fuel (gen (gen rng1)) seed with
        | none => none
        | some (ap_recipe, _) => some ⟨lc_recipe, ap_recipe⟩ :=
  ⟨seed_constants,
    fun n => ⟨round53_representable n, round53_nearest n, round53_ties_even n⟩,
    initial_state_eq seed hseed, rfl⟩

theorem C13_initial_state_witness :
    initial_state 4294967295 = 735600372 ∧
      initial_state 4294967295 =
        round53 (round53 (4294967295 * seed_factor) + seed_offset * 2 ^ 13) / 2 ^ 55 ∧
      initial_state 4294967295 < 2 ^ 31 :=
  ⟨by decide, (C13_initial_state 0 4294967295 (by decide)).2.2.1⟩

/-- C14: for every vector (of any length, empty included) and every seed, `shuffle`
swaps, for `i` from `size-1` down to 0, the positions `i` and
`j = rand_int(i+1)`, with `j <= i < size`, so every index is within bounds (and
a swap within bounds exchanges the two elements and keeps the length); the
result is a permutation of the input, of the same length. -/
theorem C14_shuffle_permutation (vec : List Material) (seed : Nat) :
    shuffle vec seed =
        (swap_indices vec.length (shuffle_state seed)).foldl (fun v p => swap v p.1 p.2) vec ∧
      (swap_indices vec.length (shuffle_state seed)).map Prod.fst =
        (List.range vec.length).reverse ∧
      (∀ p ∈ swap_indices vec.length (shuffle_state seed), p.2 ≤ p.1 ∧ p.1 < vec.length) ∧
      (∀ (v : List Material) (i j : Nat), (swap v i j).length = v.length ∧
        ∀ (hi : i < v.length) (hj : j < v.length),
          swap v i j = (v.set i (v.get ⟨j, hj⟩)).set j (v.get ⟨i, hi⟩)) ∧
      (shuffle vec seed).Perm vec ∧ (shuffle vec seed).length = vec.length :=
  ⟨shuffle_loop_eq_foldl _ _ _, swap_indices_fst _ _, swap_indices_bounds _ _,
    fun v i j => ⟨swap_length v i j, fun hi hj => swap_of_lt v i j hi hj⟩,
    shuffle_perm vec seed, (shuffle_perm vec seed).length_eq⟩

/-- C15: drop-last semantics.  For a 4-element working sequence and any shuffle
seed, with `j0` the first draw `rand_int(4)` of the shuffle generator (after the
one discarded output on state `(seed>>1)+0x30f6`): the element removed by
`pop_back` is the one originally at index `j0`, the recipe is a rearrangement of
the other three, the element at index 3 (the organic) is kept if and only if
`j0 != 3`, and for `j0 = 3` the recipe consists of the first three elements
(the liquids); a recipe returned by `random_recipe` contains an organic if and
only if `j0 != 3`. -/
theorem C15_drop_last (vec : List Material) (seed : Nat) (hlen : vec.length = 4) :
    shuffle_state seed = gen (RNG_new ((seed / 2 + 0x30f6) % 2 ^ 32)) ∧
      (rand_int 4 (shuffle_state seed)).1 < 4 ∧
      (shuffle vec seed).getLast? = vec[(rand_int 4 (shuffle_state seed)).1]? ∧
      ((shuffle vec seed).dropLast).Perm (vec.eraseIdx (rand_int 4 (shuffle_state seed)).1) ∧
      (∀ org, vec.Nodup → vec[3]? = some org →
        (org ∈ (shuffle vec seed).dropLast ↔ (rand_int 4 (shuffle_state seed)).1 ≠ 3)) ∧
      ((rand_int 4 (shuffle_state seed)).1 = 3 →
        ((shuffle vec seed).dropLast).Perm (vec.take 3)) ∧
      (∀ fuel rng recipe rng1, random_recipe fuel rng seed = some (recipe, rng1) →
        ((∃ m ∈ recipe, m.1 = MaterialType.organic) ↔
          (rand_int 4 (shuffle_state seed)).1 ≠ 3)) := by
  obtain ⟨h1, h2, h3⟩ := shuffle_four_last vec hlen seed
  refine ⟨rfl, h1, h2, h3, fun org hnd horg => shuffle_four_keeps_last vec hlen seed hnd org horg,
    fun hj => ?_, fun fuel rng recipe rng1 h => random_recipe_organic_iff fuel rng seed recipe rng1 h⟩
  rw [hj] at h3
  have e : vec.eraseIdx 3 = vec.take 3 := by
    rw [List.eraseIdx_eq_take_drop_succ, List.drop_of_length_le (by omega), List.append_nil]
  rw [← e]
  exact h3

theorem C15_drop_last_witness :
    (rand_int 4 (shuffle_state 1)).1 = 2 ∧
      (shuffle [(MaterialType.liquid, 0), (MaterialType.liquid, 2), (MaterialType.liquid, 16),
        (MaterialType.organic, 8)] 1).getLast? = some (MaterialType.liquid, 16) :=
  ⟨by decide,
    (C15_drop_last [(MaterialType.liquid, 0), (MaterialType.liquid, 2), (MaterialType.liquid, 16),
      (MaterialType.organic, 8)] 1 rfl).2.2.1.trans (by decide)⟩

/-- C16: wraparound happens only at the subtraction.  For every 32-bit state `s`,
with `lo = s mod 127773` and `hi = s div 127773`, both products `16807*lo` and
`2836*hi` are below `2^32`, and with `d = 16807*lo - 2836*hi` computed in the
integers, `gen()` returns `d` when `d >= 0` and `d + 2^31` when `d < 0`. -/
theorem C16_wrap_at_subtraction (s : Nat) (hs : s < 2 ^ 32) :
    16807 * (s % 127773) < 2 ^ 32 ∧ 2836 * (s / 127773) < 2 ^ 32 ∧
      (gen s : Int) =
        if 0 ≤ (16807 * (s % 127773 : Nat) : Int) - 2836 * (s / 127773 : Nat) then
          (16807 * (s % 127773 : Nat) : Int) - 2836 * (s / 127773 : Nat)
        else (16807 * (s % 127773 : Nat) : Int) - 2836 * (s / 127773 : Nat) + 2 ^ 31 :=
  gen_exact s hs

theorem C16_wrap_at_subtraction_witness :
    gen 127773 = 2147480812 ∧
      16807 * (127773 % 127773) < 2 ^ 32 ∧ 2836 * (127773 / 127773) < 2 ^ 32 ∧
      (gen 127773 : Int) =
        if 0 ≤ (16807 * (127773 % 127773 : Nat) : Int) - 2836 * (127773 / 127773 : Nat) then
          (16807 * (127773 % 127773 : Nat) : Int) - 2836 * (127773 / 127773 : Nat)
        else (16807 * (127773 % 127773 : Nat) : Int) - 2836 * (127773 / 127773 : Nat) + 2 ^ 31 :=
  ⟨by decide, C16_wrap_at_subtraction 127773 (by decide)⟩

/-- C17: relation to the Park-Miller minimal standard generator.  For every state
`s < 2^31`, `gen()` returns `(16807 * s) mod (2^31 - 1)` or that value plus 1:
exactly that value when `16807*(s mod 127773) >= 2836*(s div 127773)`, and that
value plus 1 otherwise; from state 1 the first three outputs are 16807,
282475249, 1622650073. -/
theorem C17_park_miller (s : Nat) (hs : s < 2 ^ 31) :
    (gen s = park_miller s ∨ gen s = park_miller s + 1) ∧
      (2836 * (s / 127773) ≤ 16807 * (s % 127773) → gen s = park_miller s) ∧
      (16807 * (s % 127773) < 2836 * (s / 127773) → gen s = park_miller s + 1) ∧
      gen 1 = 16807 ∧ gen (gen 1) = 282475249 ∧ gen (gen (gen 1)) = 1622650073 := by
  obtain ⟨h1, h2⟩ := gen_park_miller s hs
  refine ⟨?_, h1, h2, by decide, by decide, by decide⟩
  by_cases h : 2836 * (s / 127773) ≤ 16807 * (s % 127773)
  · exact Or.inl (h1 h)
  · exact Or.inr (h2 (by omega))

theorem C17_park_miller_witness :
    16807 * (127773 % 127773) < 2836 * (127773 / 127773) ∧
      gen 127773 = park_miller 127773 + 1 :=
  ⟨by decide, (C17_park_miller 127773 (by decide)).2.2.1 (by decide)⟩

/-- C18: absorbing zero state.  For every 32-bit state `s`, `gen()` returns 0 if and
only if `s` is 0, `2^31 - 1` or `2^32 - 2`; 0 is a fixed point of `gen()`, and
in state 0 every `rand_int(max)` returns 0 and leaves the state at 0. -/
theorem C18_absorbing_zero (s : Nat) (hs : s < 2 ^ 32) :
    (gen s = 0 ↔ s = 0 ∨ s = 2 ^ 31 - 1 ∨ s = 2 ^ 32 - 2) ∧ gen 0 = 0 ∧
      ∀ max, rand_int max 0 = (0, 0) :=
  ⟨gen_eq_zero_iff s hs, by decide, rand_int_zero_state⟩

theorem C18_absorbing_zero_witness :
    gen (2 ^ 32 - 2) = 0 ∧ gen (2 ^ 31 - 1) = 0 ∧ gen 0 = 0 :=
  ⟨(C18_absorbing_zero (2 ^ 32 - 2) (by decide)).1.mpr (Or.inr (Or.inr rfl)),
    by decide, by decide⟩

/-- C19: both recipes of a world are shuffled by the same swaps.  The index pairs
swapped by `shuffle` depend on the seed and the vector length only; so whenever
`generate_recipes` returns, the two recipes have the same categories position by
position: the lively concoction contains an organic if and only if the alchemic
precursor does, and the organic sits at the same position in both. -/
theorem C19_same_shuffle (fuel seed : Nat) (recipes : WorldRecipes)
    (h : generate_recipes fuel seed = some recipes) :
    (∀ v w : List Material, v.length = w.length →
      shuffle v seed =
          (swap_indices v.length (shuffle_state seed)).foldl (fun u p => swap u p.1 p.2) v ∧
        shuffle w seed =
          (swap_indices v.length (shuffle_state seed)).foldl (fun u p => swap u p.1 p.2) w) ∧
    recipes.lively_concoction.map Prod.fst = recipes.alchemic_precursor.map Prod.fst ∧
    ((∃ m ∈ recipes.lively_concoction, m.1 = MaterialType.organic) ↔
      (∃ m ∈ recipes.alchemic_precursor, m.1 = MaterialType.organic)) ∧
    (∀ k : Nat, Option.map (fun m : Material => m.1) (recipes.lively_concoction[k]?) =
      Option.map (fun m : Material => m.1) (recipes.alchemic_precursor[k]?)) := by
  have ht := generate_recipes_types fuel seed recipes h
  obtain ⟨rng1, rng2, h1, h2⟩ := generate_recipes_eq fuel seed recipes h
  refine ⟨fun v w hvw => ⟨shuffle_loop_eq_foldl _ _ _, ?_⟩, ht, ?_, ?_⟩
  · rw [hvw]
    exact shuffle_loop_eq_foldl _ _ _
  · rw [random_recipe_organic_iff fuel _ seed _ rng1 h1,
      random_recipe_organic_iff fuel _ seed _ rng2 h2]
  · intro k
    have := congrArg (fun l : List MaterialType => l[k]?) ht
    simp only [List.getElem?_map] at this
    exact this

theorem C19_same_shuffle_witness :
    generate_recipes 5 1 =
        some ⟨[(MaterialType.liquid, 5), (MaterialType.liquid, 3), (MaterialType.organic, 10)],
          [(MaterialType.liquid, 8), (MaterialType.liquid, 16), (MaterialType.organic, 16)]⟩ ∧
      [(MaterialType.liquid, 5), (MaterialType.liquid, 3), (MaterialType.organic, 10)].map
          Prod.fst =
        [(MaterialType.liquid, 8), (MaterialType.liquid, 16), (MaterialType.organic, 16)].map
          Prod.fst :=
  ⟨by decide,
    (C19_same_shuffle 5 1
      ⟨[(MaterialType.liquid, 5), (MaterialType.liquid, 3), (MaterialType.organic, 10)],
        [(MaterialType.liquid, 8), (MaterialType.liquid, 16), (MaterialType.organic, 16)]⟩
      (by decide)).2.1⟩

/-- C20: every material of a recipe returned by `random_recipe` is a valid catalog
entry (a liquid with index below 22 or an organic with index below 18), so the
name lookup of `operator<<` succeeds for it; the recipe holds at most one organic
and at least two liquids. -/
theorem C20_recipe_valid (fuel rng seed : Nat) (recipe : List Material) (rng1 : Nat)
    (h : random_recipe fuel rng seed = some (recipe, rng1)) :
    (∀ m ∈ recipe, (m.1 = MaterialType.liquid ∧ m.2 < 22) ∨
      (m.1 = MaterialType.organic ∧ m.2 < 18)) ∧
    (∀ m ∈ recipe, (material_name m).isSome = true) ∧
    LIQUIDS.length = 22 ∧ ORGANICS.length = 18 ∧
    recipe.countP (fun m => m.1 = MaterialType.organic) ≤ 1 ∧
    2 ≤ recipe.countP (fun m => m.1 = MaterialType.liquid) := by
  obtain ⟨h1, h2, h3⟩ := random_recipe_valid fuel rng seed recipe rng1 h
  exact ⟨h1, fun m hm => material_name_of_valid m (h1 m hm), rfl, rfl, h2, h3⟩

theorem C20_recipe_valid_witness :
    random_recipe 3 1 1 =
        some ([(MaterialType.liquid, 0), (MaterialType.liquid, 2), (MaterialType.organic, 8)],
          984943658) ∧
      ∀ m ∈ [(MaterialType.liquid, 0), (MaterialType.liquid, 2), (MaterialType.organic, 8)],
        (material_name m).isSome = true :=
  ⟨by decide, (C20_recipe_valid 3 1 1 _ 984943658 (by decide)).2.1⟩

end Noita
